import Mathlib

/-!
A shallow embedding of the fracdex fractional-indexing package.

Go strings are modelled as lists of characters ("Str").  Every character the
algorithms inspect is ASCII, so Go's byte-wise string comparison agrees with
character-wise lexicographic comparison on these lists.

A Go computation returning (value, error) is modelled with "GRes": GRes.ok for
a successful return, GRes.err for a returned non-nil error, and GRes.crash for
a Go runtime panic (out-of-range string indexing, which the library can hit on
keys that pass validateOrderKey but contain characters outside the base-62
alphabet).  The library never inspects error messages, only nil-ness, so error
messages are not modelled.
-/

namespace Fracdex

/-- Result of a Go computation: a value, a returned error, or a runtime panic. -/
inductive GRes (α : Type) where
  | ok : α → GRes α
  | err : GRes α
  | crash : GRes α
  deriving DecidableEq, Repr

def GRes.bind {α β : Type} : GRes α → (α → GRes β) → GRes β
  | .ok a, f => f a
  | .err, _ => .err
  | .crash, _ => .crash

def GRes.map {α β : Type} (f : α → β) : GRes α → GRes β
  | .ok a => .ok (f a)
  | .err => .err
  | .crash => .crash

/-- Go strings, as lists of characters (each relevant character is ASCII,
so character order coincides with Go's byte order). -/
abbrev Str := List Char

/-- const base62Digits = "0123456789ABCDEFGHIJKLMNOPQRSTUVWXYZabcdefghijklmnopqrstuvwxyz" -/
def base62Digits : Str :=
  "0123456789ABCDEFGHIJKLMNOPQRSTUVWXYZabcdefghijklmnopqrstuvwxyz".toList

/-- const smallestInt = "A00000000000000000000000000" -/
def smallestInt : Str := "A00000000000000000000000000".toList

/-- const zero = "a0" -/
def zero : Str := "a0".toList

/-- Go's byte-wise string comparison a < b. -/
def strLt : Str → Str → Bool
  | _, [] => false
  | [], _ :: _ => true
  | a :: as, b :: bs => if a < b then true else if b < a then false else strLt as bs

/-- Go's strings.Index(s, string(c)): index of the first occurrence of c in s,
or -1 when absent. -/
def strIndex (s : Str) (c : Char) : Int :=
  match s.findIdx? (· = c) with
  | some i => (i : Int)
  | none => -1

/-- Indexing base62Digits at a possibly-out-of-range position.  Go panics when
the index is out of range; that is the GRes.crash case. -/
def base62At (i : Int) : GRes Char :=
  if 0 ≤ i ∧ i < 62 then .ok (base62Digits.getD i.toNat '0') else .crash

/-- func getIntLen(head byte) (int, error) -/
def getIntLen (head : Char) : Option Nat :=
  if 'a' ≤ head ∧ head ≤ 'z' then some (head.toNat - 'a'.toNat + 2)
  else if 'A' ≤ head ∧ head ≤ 'Z' then some ('Z'.toNat - head.toNat + 2)
  else none

/-- func getIntPart(key string) (string, error).  Go reads key[0], so it is
never called on an empty key (it would panic); the empty case is mapped to the
error outcome, which no caller in the claims can distinguish. -/
def getIntPart (key : Str) : Option Str :=
  match key with
  | [] => none
  | h :: _ =>
    match getIntLen h with
    | none => none
    | some n => if key.length < n then none else some (key.take n)

/-- func validateInt(i string) error.  true means no error.  As with
getIntPart, Go reads i[0] and is never called on an empty string. -/
def validateInt (i : Str) : Bool :=
  match i with
  | [] => false
  | h :: _ =>
    match getIntLen h with
    | none => false
    | some e => i.length = e

/-- func validateOrderKey(key string) error.  true means no error. -/
def validateOrderKey (key : Str) : Bool :=
  if key = smallestInt then false
  else
    match getIntPart key with
    | none => false
    | some i => !((key.drop i.length).getLast? == some '0')

/-- The carry loop of incrementInt: digits are processed from the right while
the carry is set; a digit at index 61 (that is, 'z') wraps to '0'. -/
def incDigits : List Char → GRes (List Char × Bool)
  | [] => .ok ([], true)
  | d :: rest =>
    (incDigits rest).bind fun p =>
      if p.2 then
        if strIndex base62Digits d + 1 = 62 then .ok ('0' :: p.1, true)
        else (base62At (strIndex base62Digits d + 1)).map fun c => (c :: p.1, false)
      else .ok (d :: p.1, false)

/-- func incrementInt(x string) (string, error).  GRes.ok [] is Go's
("" , nil) overflow signal. -/
def incrementInt (x : Str) : GRes Str :=
  if validateInt x = false then .err
  else
    match x with
    | [] => .err
    | head :: digs =>
      (incDigits digs).bind fun p =>
        if p.2 then
          if head = 'Z' then .ok zero
          else if head = 'z' then .ok []
          else if 'a' < Char.ofNat (head.toNat + 1) then
            .ok (Char.ofNat (head.toNat + 1) :: (p.1 ++ ['0']))
          else .ok (Char.ofNat (head.toNat + 1) :: p.1.drop 1)
        else .ok (head :: p.1)

/-- The borrow loop of decrementInt: digits are processed from the right while
the borrow is set; a digit at index 0 wraps to base62Digits[61] = 'z'.  A digit
outside the alphabet makes Go index base62Digits at -2: a panic (GRes.crash). -/
def decDigits : List Char → GRes (List Char × Bool)
  | [] => .ok ([], true)
  | d :: rest =>
    (decDigits rest).bind fun p =>
      if p.2 then
        if strIndex base62Digits d - 1 = -1 then .ok ('z' :: p.1, true)
        else (base62At (strIndex base62Digits d - 1)).map fun c => (c :: p.1, false)
      else .ok (d :: p.1, false)

/-- func decrementInt(x string) (string, error).  GRes.ok [] is Go's
("" , nil) underflow signal. -/
def decrementInt (x : Str) : GRes Str :=
  if validateInt x = false then .err
  else
    match x with
    | [] => .err
    | head :: digs =>
      (decDigits digs).bind fun p =>
        if p.2 then
          if head = 'a' then .ok ('Z' :: ['z'])
          else if head = 'A' then .ok []
          else if Char.ofNat (head.toNat - 1) < 'Z' then
            .ok (Char.ofNat (head.toNat - 1) :: (p.1 ++ ['z']))
          else .ok (Char.ofNat (head.toNat - 1) :: p.1.drop 1)
        else .ok (head :: p.1)

/-- Length of the longest common prefix of b and (a padded on the right with
'0'), capped at b's length: the loop at the top of midpoint. -/
def cpl : Str → Str → Nat
  | _, [] => 0
  | [], b0 :: bs => if '0' = b0 then cpl [] bs + 1 else 0
  | a0 :: as, b0 :: bs => if a0 = b0 then cpl as bs + 1 else 0

theorem cpl_le (a b : Str) : cpl a b ≤ b.length := by
  induction b generalizing a with
  | nil => cases a <;> simp [cpl]
  | cons b0 bs ih =>
    cases a with
    | nil =>
      simp only [cpl, List.length_cons]
      split
      · have h := ih []
        omega
      · omega
    | cons a0 as =>
      simp only [cpl, List.length_cons]
      split
      · have h := ih as
        omega
      · omega

/-- int(math.Round(0.5 * float64(s))) for an int s: round half away from
zero.  All arguments in the library are small, so the float computation is
exact. -/
def roundHalf (s : Int) : Int := if 0 ≤ s then (s + 1) / 2 else -((1 - s) / 2)

/-- digitA in midpoint: 0 when a is exhausted, else the alphabet index of its
first character (-1 when that character is outside the alphabet). -/
def digitOfA (a : Str) : Int :=
  match a with
  | [] => 0
  | a0 :: _ => strIndex base62Digits a0

/-- digitB in midpoint: len(base62Digits) = 62 when b is unbounded, else the
alphabet index of its first character (-1 outside the alphabet). -/
def digitOfB (b : Str) : Int :=
  match b with
  | [] => 62
  | b0 :: _ => strIndex base62Digits b0

/-- The body of func midpoint(a, b string) string, with the recursion depth
bounded by an explicit fuel parameter (each recursive call strictly decreases
len(a) + len(b), so any fuel above that sum is enough; midpoint_fuel below
proves the bound, making midpointF fuel-independent and in particular proving
that the Go recursion terminates).  The only way the function can fail is a Go
panic: indexing base62Digits at -1 when a begins with a character outside the
alphabet and there is no room (GRes.crash). -/
def midpointF : Nat → Str → Str → GRes Str
  | 0, _, _ => .crash
  | fuel + 1, a, b =>
    if b ≠ [] ∧ 0 < cpl a b then
      if a.length < cpl a b then (midpointF fuel [] (b.drop (cpl a b))).map (b.take (cpl a b) ++ ·)
      else (midpointF fuel (a.drop (cpl a b)) (b.drop (cpl a b))).map (b.take (cpl a b) ++ ·)
    else
      if 1 < digitOfB b - digitOfA a then
        (base62At (roundHalf (digitOfA a + digitOfB b))).map ([·])
      else if 1 < b.length then .ok (b.take 1)
      else (base62At (digitOfA a)).bind fun c => (midpointF fuel (a.drop 1) []).map (c :: ·)

/-- func midpoint(a, b string) string. -/
def midpoint (a b : Str) : GRes Str := midpointF (a.length + b.length + 1) a b

/-- The fuel of midpointF is irrelevant as soon as it exceeds
len(a) + len(b): the Go recursion reaches a depth of at most that sum. -/
theorem midpointF_eq (f : Nat) : ∀ (g : Nat) (a b : Str),
    a.length + b.length < f → a.length + b.length < g →
    midpointF f a b = midpointF g a b := by
  induction f with
  | zero => intro g a b hf; omega
  | succ f' ih =>
    intro g a b hf hg
    cases g with
    | zero => omega
    | succ g' =>
      have hcl := cpl_le a b
      simp only [midpointF]
      split_ifs with h1 h2 h3 h4
      · rw [ih g' [] (b.drop (cpl a b)) (by simp only [List.length_nil, List.length_drop]; omega)
          (by simp only [List.length_nil, List.length_drop]; omega)]
      · rw [ih g' (a.drop (cpl a b)) (b.drop (cpl a b))
          (by simp only [List.length_drop]; omega)
          (by simp only [List.length_drop]; omega)]
      · rfl
      · rfl
      · have hne : a ≠ [] ∨ b ≠ [] := by
          by_contra hc
          push_neg at hc
          rw [hc.1, hc.2] at h3
          simp [digitOfA, digitOfB] at h3
        have hlen : 0 < a.length ∨ 0 < b.length := by
          rcases hne with h | h
          · left; exact List.length_pos.mpr h
          · right; exact List.length_pos.mpr h
        rw [ih g' (a.drop 1) [] (by simp only [List.length_nil, List.length_drop]; omega)
          (by simp only [List.length_nil, List.length_drop]; omega)]

/-- Any sufficient fuel computes midpoint. -/
theorem midpointF_midpoint (f : Nat) (a b : Str) (hf : a.length + b.length < f) :
    midpointF f a b = midpoint a b :=
  midpointF_eq f (a.length + b.length + 1) a b hf (by omega)

/-- The defining equation of midpoint, with the recursion expressed in terms
of midpoint itself. -/
theorem midpoint_eq (a b : Str) : midpoint a b =
    (if b ≠ [] ∧ 0 < cpl a b then
      if a.length < cpl a b then (midpoint [] (b.drop (cpl a b))).map (b.take (cpl a b) ++ ·)
      else (midpoint (a.drop (cpl a b)) (b.drop (cpl a b))).map (b.take (cpl a b) ++ ·)
    else
      if 1 < digitOfB b - digitOfA a then
        (base62At (roundHalf (digitOfA a + digitOfB b))).map ([·])
      else if 1 < b.length then .ok (b.take 1)
      else (base62At (digitOfA a)).bind fun c => (midpoint (a.drop 1) []).map (c :: ·)) := by
  have hcl := cpl_le a b
  conv_lhs => rw [midpoint]
  simp only [midpointF]
  split_ifs with h1 h2 h3 h4
  · rw [midpointF_midpoint _ [] (b.drop (cpl a b))
      (by simp only [List.length_nil, List.length_drop]; omega)]
  · rw [midpointF_midpoint _ (a.drop (cpl a b)) (b.drop (cpl a b))
      (by simp only [List.length_drop]; omega)]
  · rfl
  · rfl
  · have hne : a ≠ [] ∨ b ≠ [] := by
      by_contra hc
      push_neg at hc
      rw [hc.1, hc.2] at h3
      simp [digitOfA, digitOfB] at h3
    have hlen : 0 < a.length ∨ 0 < b.length := by
      rcases hne with h | h
      · left; exact List.length_pos.mpr h
      · right; exact List.length_pos.mpr h
    rw [midpointF_midpoint _ (a.drop 1) []
      (by simp only [List.length_nil, List.length_drop]; omega)]

/-- func KeyBetween(a, b string) (string, error). -/
def KeyBetween (a b : Str) : GRes Str :=
  if a ≠ [] ∧ validateOrderKey a = false then .err
  else if b ≠ [] ∧ validateOrderKey b = false then .err
  else if a ≠ [] ∧ b ≠ [] ∧ strLt a b = false then .err
  else if a = [] then
    if b = [] then .ok zero
    else
      match getIntPart b with
      | none => .err
      | some ib =>
        if ib = smallestInt then (midpoint [] (b.drop ib.length)).map (ib ++ ·)
        else if strLt ib b then .ok ib
        else (decrementInt ib).bind fun res => if res = [] then .err else .ok res
  else if b = [] then
    match getIntPart a with
    | none => .err
    | some ia =>
      (incrementInt ia).bind fun i =>
        if i = [] then (midpoint (a.drop ia.length) []).map (ia ++ ·) else .ok i
  else
    match getIntPart a with
    | none => .err
    | some ia =>
      match getIntPart b with
      | none => .err
      | some ib =>
        if ia = ib then (midpoint (a.drop ia.length) (b.drop ib.length)).map (ia ++ ·)
        else
          (incrementInt ia).bind fun i =>
            if i = [] then .err
            else if strLt i b then .ok i
            else (midpoint (a.drop ia.length) []).map (ia ++ ·)

/-- The loop of NKeysBetween when b is empty: repeatedly extend upward from c,
collecting the successive keys (count is the remaining number of iterations). -/
def chainUp (count : Nat) (c : Str) : GRes (List Str) :=
  match count with
  | 0 => .ok []
  | k + 1 => (KeyBetween c []).bind fun d => (chainUp k d).map (d :: ·)

/-- The loop of NKeysBetween when a is empty: repeatedly extend downward from
c; the caller reverses the collected keys. -/
def chainDown (count : Nat) (c : Str) : GRes (List Str) :=
  match count with
  | 0 => .ok []
  | k + 1 => (KeyBetween [] c).bind fun d => (chainDown k d).map (d :: ·)

/-- The body of func NKeysBetween(a, b string, n uint) ([]string, error), with
the divide-and-conquer recursion depth bounded by fuel; every recursive call
strictly decreases n, so fuel = n is enough (nKeysBetweenF_eq below). -/
def nKeysBetweenF : Nat → Str → Str → Nat → GRes (List Str)
  | _, _, _, 0 => .ok []
  | _, a, b, 1 => (KeyBetween a b).map ([·])
  | fuel, a, b, n =>
    if b = [] then (KeyBetween a b).bind fun c => (chainUp (n - 1) c).map (c :: ·)
    else if a = [] then
      (KeyBetween a b).bind fun c => (chainDown (n - 1) c).map fun l => (c :: l).reverse
    else
      match fuel with
      | 0 => .crash
      | fuel + 1 =>
        let mid := n / 2
        (KeyBetween a b).bind fun c =>
          (nKeysBetweenF fuel a c mid).bind fun left =>
            (nKeysBetweenF fuel c b (n - mid - 1)).map fun right => left ++ c :: right

/-- func NKeysBetween(a, b string, n uint) ([]string, error). -/
def NKeysBetween (a b : Str) (n : Nat) : GRes (List Str) := nKeysBetweenF n a b n

/-- The fuel of nKeysBetweenF is irrelevant as soon as it is at least n: the
divide-and-conquer recursion of NKeysBetween reaches a depth of at most n. -/
theorem nKeysBetweenF_eq (f : Nat) : ∀ (g : Nat) (a b : Str) (n : Nat),
    n ≤ f → n ≤ g → nKeysBetweenF f a b n = nKeysBetweenF g a b n := by
  induction f with
  | zero =>
    intro g a b n hf _
    have h0 : n = 0 := by omega
    subst h0
    cases g with
    | zero => rfl
    | succ g' => rfl
  | succ f' ih =>
    intro g a b n hf hg
    match n with
    | 0 =>
      cases g with
      | zero => rfl
      | succ g' => rfl
    | 1 =>
      cases g with
      | zero => omega
      | succ g' => rfl
    | m + 2 =>
      cases g with
      | zero => omega
      | succ g' =>
        simp only [nKeysBetweenF]
        split_ifs with h1 h2
        · rfl
        · rfl
        · congr 1
          funext c
          rw [ih g' a c ((m + 2) / 2) (by omega) (by omega)]
          congr 1
          funext l
          rw [ih g' c b (m + 2 - (m + 2) / 2 - 1) (by omega) (by omega)]

/-- The defining equation of NKeysBetween for n at least 2, with the recursion
expressed in terms of NKeysBetween itself. -/
theorem NKeysBetween_two (a b : Str) (m : Nat) : NKeysBetween a b (m + 2) =
    (if b = [] then (KeyBetween a b).bind fun c => (chainUp (m + 1) c).map (c :: ·)
    else if a = [] then
      (KeyBetween a b).bind fun c => (chainDown (m + 1) c).map fun l => (c :: l).reverse
    else
      (KeyBetween a b).bind fun c =>
        (NKeysBetween a c ((m + 2) / 2)).bind fun left =>
          (NKeysBetween c b (m + 2 - (m + 2) / 2 - 1)).map fun right =>
            left ++ c :: right) := by
  show nKeysBetweenF (m + 2) a b (m + 2) = _
  simp only [nKeysBetweenF]
  split_ifs with h1 h2
  · rfl
  · rfl
  · congr 1
    funext c
    rw [nKeysBetweenF_eq (m + 1) ((m + 2) / 2) a c ((m + 2) / 2) (by omega) (by omega)]
    congr 1
    funext l
    rw [nKeysBetweenF_eq (m + 1) (m + 2 - (m + 2) / 2 - 1) c b (m + 2 - (m + 2) / 2 - 1)
      (by omega) (by omega)]
    rfl

/-!
The jitter engine.  A Go Jitter is a stateful object with one method
IntnRange(min, max).  Within one computation the sequence of calls is
determined by the draws themselves, so a deterministic jitter object is
captured extensionally by a function from (call index, min, max) to the
drawn value; the call index is threaded through the computation.  NoJitter is
the function that always returns 0.  Nothing constrains the draws: the claims
quantify over every jitter source.
-/

/-- A jitter source: call index, min, max to the drawn value. -/
abbrev JF := Nat → Int → Int → Int

/-- NoJitter.IntnRange returns 0 for every call. -/
def noJitter : JF := fun _ _ _ => 0

/-- The body of func midpointJitter(a, b string, j Jitter, jitterRange int)
string, fuel-bounded exactly like midpointF.  The result carries the next
jitter call index.  As in midpoint, Go panics surface as GRes.crash; here the
randomized digit picks can also index base62Digits out of range when the
jitter source draws outside the requested interval. -/
def midpointJitterF : Nat → Str → Str → JF → Nat → Int → GRes (Str × Nat)
  | 0, _, _, _, _, _ => .crash
  | fuel + 1, a, b, j, k, jr =>
    if b ≠ [] ∧ 0 < cpl a b then
      if a.length < cpl a b then
        (midpointJitterF fuel [] (b.drop (cpl a b)) j k jr).map
          (fun p => (b.take (cpl a b) ++ p.1, p.2))
      else
        (midpointJitterF fuel (a.drop (cpl a b)) (b.drop (cpl a b)) j k jr).map
          (fun p => (b.take (cpl a b) ++ p.1, p.2))
    else
      if 1 < digitOfB b - digitOfA a then
        let interior := digitOfB b - digitOfA a - 1
        let center := digitOfA a + 1 + interior / 2
        let lo := max (digitOfA a + 1) (center - j k 0 jr)
        let hi := min (digitOfB b - 1) (center + j (k + 1) 0 jr)
        if lo < hi then (base62At (j (k + 2) lo hi)).map (fun c => ([c], k + 3))
        else (base62At lo).map (fun c => ([c], k + 2))
      else if 1 < b.length then
        let upper := strIndex base62Digits (b.getD 1 ' ') - 1
        if upper < 0 then .ok (b.take 1, k)
        else if 1 ≤ upper then
          (base62At (j k 1 (min upper (1 + jr)))).map (fun c => (b.take 1 ++ [c], k + 1))
        else (base62At 1).map (fun c => (b.take 1 ++ [c], k))
      else
        (base62At (digitOfA a)).bind fun c =>
          (midpointJitterF fuel (a.drop 1) [] j k jr).map (fun p => (c :: p.1, p.2))

/-- func midpointJitter(a, b string, j Jitter, jitterRange int) string. -/
def midpointJitter (a b : Str) (j : JF) (k : Nat) (jr : Int) : GRes (Str × Nat) :=
  midpointJitterF (a.length + b.length + 1) a b j k jr

/-- func keyBetweenInternal(a, b string, j Jitter, jitterRange int)
(string, error): the jittered twin of KeyBetween, dispatching identically but
into midpointJitter. -/
def keyBetweenInternal (a b : Str) (j : JF) (k : Nat) (jr : Int) : GRes (Str × Nat) :=
  if a ≠ [] ∧ validateOrderKey a = false then .err
  else if b ≠ [] ∧ validateOrderKey b = false then .err
  else if a ≠ [] ∧ b ≠ [] ∧ strLt a b = false then .err
  else if a = [] then
    if b = [] then .ok (zero, k)
    else
      match getIntPart b with
      | none => .err
      | some ib =>
        if ib = smallestInt then
          (midpointJitter [] (b.drop ib.length) j k jr).map (fun p => (ib ++ p.1, p.2))
        else if strLt ib b then .ok (ib, k)
        else (decrementInt ib).bind fun res => if res = [] then .err else .ok (res, k)
  else if b = [] then
    match getIntPart a with
    | none => .err
    | some ia =>
      (incrementInt ia).bind fun i =>
        if i = [] then
          (midpointJitter (a.drop ia.length) [] j k jr).map (fun p => (ia ++ p.1, p.2))
        else .ok (i, k)
  else
    match getIntPart a with
    | none => .err
    | some ia =>
      match getIntPart b with
      | none => .err
      | some ib =>
        if ia = ib then
          (midpointJitter (a.drop ia.length) (b.drop ib.length) j k jr).map
            (fun p => (ia ++ p.1, p.2))
        else
          (incrementInt ia).bind fun i =>
            if i = [] then .err
            else if strLt i b then .ok (i, k)
            else (midpointJitter (a.drop ia.length) [] j k jr).map (fun p => (ia ++ p.1, p.2))

/-- func KeyBetweenJitter(a, b string, j Jitter, jitterRange int)
(string, error). -/
def KeyBetweenJitter (a b : Str) (j : JF) (k : Nat) (jr : Int) : GRes (Str × Nat) :=
  keyBetweenInternal a b j k jr

/-- The loop of NKeysBetweenJitter when b is empty. -/
def chainUpJ (j : JF) (jr : Int) : Nat → Str → Nat → GRes (List Str × Nat)
  | 0, _, k => .ok ([], k)
  | cnt + 1, c, k =>
    (KeyBetweenJitter c [] j k jr).bind fun p =>
      (chainUpJ j jr cnt p.1 p.2).map fun q => (p.1 :: q.1, q.2)

/-- The loop of NKeysBetweenJitter when a is empty. -/
def chainDownJ (j : JF) (jr : Int) : Nat → Str → Nat → GRes (List Str × Nat)
  | 0, _, k => .ok ([], k)
  | cnt + 1, c, k =>
    (KeyBetweenJitter [] c j k jr).bind fun p =>
      (chainDownJ j jr cnt p.1 p.2).map fun q => (p.1 :: q.1, q.2)

/-- The body of func NKeysBetweenJitter(a, b string, n uint, j Jitter,
jitterRange int) ([]string, error), fuel-bounded like nKeysBetweenF. -/
def nKeysBetweenJitterF : Nat → Str → Str → Nat → JF → Nat → Int → GRes (List Str × Nat)
  | _, _, _, 0, _, k, _ => .ok ([], k)
  | _, a, b, 1, j, k, jr => (KeyBetweenJitter a b j k jr).map (fun p => ([p.1], p.2))
  | fuel, a, b, n, j, k, jr =>
    if b = [] then
      (KeyBetweenJitter a b j k jr).bind fun p =>
        (chainUpJ j jr (n - 1) p.1 p.2).map fun q => (p.1 :: q.1, q.2)
    else if a = [] then
      (KeyBetweenJitter a b j k jr).bind fun p =>
        (chainDownJ j jr (n - 1) p.1 p.2).map fun q => ((p.1 :: q.1).reverse, q.2)
    else
      match fuel with
      | 0 => .crash
      | fuel + 1 =>
        (KeyBetweenJitter a b j k jr).bind fun p =>
          (nKeysBetweenJitterF fuel a p.1 (n / 2) j p.2 jr).bind fun ql =>
            (nKeysBetweenJitterF fuel p.1 b (n - n / 2 - 1) j ql.2 jr).map fun qr =>
              (ql.1 ++ p.1 :: qr.1, qr.2)

/-- func NKeysBetweenJitter(a, b string, n uint, j Jitter, jitterRange int)
([]string, error). -/
def NKeysBetweenJitter (a b : Str) (n : Nat) (j : JF) (k : Nat) (jr : Int) :
    GRes (List Str × Nat) :=
  nKeysBetweenJitterF n a b n j k jr

/-!
func Float64Approx(key string) (float64, error).  Go computes in float64; it
is modelled here with exact rationals.  On the inputs of the claims every
float64 operation involved is exact (small integers and dyadic fractions), so
the rational model returns the exact float64 values the Go code returns.
-/

/-- The integer-part digit loop of Float64Approx: digits contribute
digitValue * 62^position, counting positions from the right. -/
def intDigitsVal : List Char → GRes ℚ
  | [] => .ok 0
  | d :: rest =>
    if strIndex base62Digits d = -1 then .err
    else
      (intDigitsVal rest).map fun v =>
        ((strIndex base62Digits d : ℚ) * (62 : ℚ) ^ rest.length) + v

/-- The fractional-part loop of Float64Approx: the digit at offset i
contributes digitValue / 62^(i+1). -/
def fracDigitsVal : List Char → Nat → GRes ℚ
  | [], _ => .ok 0
  | d :: rest, i =>
    if strIndex base62Digits d = -1 then .err
    else
      (fracDigitsVal rest (i + 1)).map fun v =>
        ((strIndex base62Digits d : ℚ) / (62 : ℚ) ^ (i + 1)) + v

/-- func Float64Approx(key string) (float64, error), in the exact model. -/
def Float64Approx (key : Str) : GRes ℚ :=
  if key = [] then .err
  else if validateOrderKey key = false then .err
  else
    match getIntPart key with
    | none => .err
    | some ip =>
      match ip with
      | [] => .err
      | head :: digs =>
        (intDigitsVal digs).bind fun v1 =>
          (fracDigitsVal (key.drop ip.length) 0).map fun v2 =>
            if head < 'a' then -(v1 + v2) else v1 + v2

/-!
Lemmas about the byte-wise string order.
-/

theorem strLt_nil_right (a : Str) : strLt a [] = false := by cases a <;> rfl

theorem strLt_nil_left (b : Str) (hb : b ≠ []) : strLt [] b = true := by
  cases b with
  | nil => exact absurd rfl hb
  | cons b0 bs => rfl

theorem strLt_cons_iff (a0 b0 : Char) (as bs : Str) :
    strLt (a0 :: as) (b0 :: bs) = true ↔ a0 < b0 ∨ (a0 = b0 ∧ strLt as bs = true) := by
  simp only [strLt]
  split_ifs with h1 h2
  · simp [h1]
  · constructor
    · intro h; exact absurd h (by simp)
    · rintro (h | ⟨h, _⟩)
      · exact absurd h h1
      · subst h; exact absurd h2 (lt_irrefl _)
  · have he : a0 = b0 := le_antisymm (not_lt.mp h2) (not_lt.mp h1)
    subst he
    simp [lt_irrefl]

theorem strLt_irrefl (s : Str) : strLt s s = false := by
  induction s with
  | nil => rfl
  | cons c cs ih => simp [strLt, ih, lt_irrefl]

theorem strLt_append_self (p t : Str) : strLt (p ++ t) p = false := by
  induction p with
  | nil => exact strLt_nil_right t
  | cons c cs ih => simp [strLt, ih, lt_irrefl]

theorem strLt_grow (p t : Str) (ht : t ≠ []) : strLt p (p ++ t) = true := by
  induction p with
  | nil => exact strLt_nil_left t ht
  | cons c cs ih => simp [strLt, ih, lt_irrefl]

theorem strLt_append_left (p x y : Str) : strLt (p ++ x) (p ++ y) = strLt x y := by
  induction p with
  | nil => rfl
  | cons c cs ih => simp [strLt, ih, lt_irrefl]

theorem strLt_trans {a b c : Str} (h1 : strLt a b = true) (h2 : strLt b c = true) :
    strLt a c = true := by
  induction a generalizing b c with
  | nil =>
    cases c with
    | nil => rw [strLt_nil_right] at h2; exact absurd h2 (by simp)
    | cons c0 cs => rfl
  | cons a0 as ih =>
    cases b with
    | nil => rw [strLt_nil_right] at h1; exact absurd h1 (by simp)
    | cons b0 bs =>
      cases c with
      | nil => rw [strLt_nil_right] at h2; exact absurd h2 (by simp)
      | cons c0 cs =>
        rw [strLt_cons_iff] at h1 h2 ⊢
        rcases h1 with h1 | ⟨e1, h1⟩
        · rcases h2 with h2 | ⟨e2, h2⟩
          · exact Or.inl (lt_trans h1 h2)
          · subst e2; exact Or.inl h1
        · subst e1
          rcases h2 with h2 | ⟨e2, h2⟩
          · exact Or.inl h2
          · subst e2; exact Or.inr ⟨rfl, ih h1 h2⟩

theorem strLt_total {a b : Str} (h : strLt a b = false) : a = b ∨ strLt b a = true := by
  induction a generalizing b with
  | nil =>
    cases b with
    | nil => exact Or.inl rfl
    | cons b0 bs => exact absurd h (by simp [strLt])
  | cons a0 as ih =>
    cases b with
    | nil => exact Or.inr rfl
    | cons b0 bs =>
      rcases lt_trichotomy a0 b0 with hlt | heq | hgt
      · simp [strLt, hlt] at h
      · subst heq
        simp only [strLt, lt_irrefl, if_false] at h
        rcases ih h with rfl | hba
        · exact Or.inl rfl
        · refine Or.inr ?_
          rw [strLt_cons_iff]
          exact Or.inr ⟨rfl, hba⟩
      · refine Or.inr ?_
        rw [strLt_cons_iff]
        exact Or.inl hgt

theorem strLt_extend {p q : Str} (t : Str) (hnp : ¬ p <+: q) (h : strLt p q = true) :
    strLt (p ++ t) q = true := by
  induction p generalizing q with
  | nil => exact absurd (List.nil_prefix) hnp
  | cons p0 ps ih =>
    cases q with
    | nil => rw [strLt_nil_right] at h; exact absurd h (by simp)
    | cons q0 qs =>
      rw [List.cons_append, strLt_cons_iff]
      rw [strLt_cons_iff] at h
      rcases h with h | ⟨e, h⟩
      · exact Or.inl h
      · subst e
        refine Or.inr ⟨rfl, ih ?_ h⟩
        intro hp
        exact hnp (List.cons_prefix_cons.mpr ⟨rfl, hp⟩)

theorem strLt_of_append {p t q : Str} (h : strLt (p ++ t) q = true) :
    strLt p q = true ∨ p = q := by
  induction p generalizing q with
  | nil =>
    cases q with
    | nil => exact Or.inr rfl
    | cons q0 qs => exact Or.inl rfl
  | cons p0 ps ih =>
    cases q with
    | nil => rw [strLt_nil_right] at h; exact absurd h (by simp)
    | cons q0 qs =>
      rw [List.cons_append, strLt_cons_iff] at h
      rcases h with h | ⟨e, h⟩
      · exact Or.inl (by rw [strLt_cons_iff]; exact Or.inl h)
      · subst e
        rcases ih h with h' | rfl
        · exact Or.inl (by rw [strLt_cons_iff]; exact Or.inr ⟨rfl, h'⟩)
        · exact Or.inr rfl

theorem strLt_ne {a b : Str} (h : strLt a b = true) : a ≠ b := by
  intro he
  subst he
  rw [strLt_irrefl] at h
  exact absurd h (by simp)

/-!
Facts about the base-62 alphabet, established by computation.
-/

/-- All characters of s lie in the base-62 alphabet. -/
def alpha (s : Str) : Prop := ∀ c ∈ s, c ∈ base62Digits

instance alphaDecidable (s : Str) : Decidable (alpha s) :=
  List.decidableBAll _ s

theorem alpha_le_z : ∀ c ∈ base62Digits, c ≤ 'z' := by decide

theorem strIndex_bounds : ∀ c ∈ base62Digits,
    0 ≤ strIndex base62Digits c ∧ strIndex base62Digits c < 62 := by decide

theorem strIndex_roundtrip : ∀ c ∈ base62Digits,
    base62At (strIndex base62Digits c) = .ok c := by decide

theorem strIndex_zero_iff : ∀ c ∈ base62Digits,
    (strIndex base62Digits c = 0 ↔ c = '0') := by decide

set_option maxRecDepth 40000 in
theorem strIndex_mono : ∀ c ∈ base62Digits, ∀ d ∈ base62Digits,
    (c < d ↔ strIndex base62Digits c < strIndex base62Digits d) := by decide

set_option maxRecDepth 40000 in
theorem base62At_spec : ∀ j : Nat, j < 62 →
    base62At (j : Int) = .ok (base62Digits.getD j '0') ∧
    (base62Digits.getD j '0') ∈ base62Digits ∧
    strIndex base62Digits (base62Digits.getD j '0') = (j : Int) := by decide

theorem getD_ne_zero : ∀ j : Nat, 1 ≤ j → j < 62 → base62Digits.getD j '0' ≠ '0' := by decide

theorem zero_mem_base62 : '0' ∈ base62Digits := by decide

theorem alpha_nil : alpha [] := by intro c hc; cases hc

theorem alpha_append {s t : Str} : alpha (s ++ t) ↔ alpha s ∧ alpha t := by
  constructor
  · intro h
    exact ⟨fun c hc => h c (List.mem_append.mpr (Or.inl hc)),
           fun c hc => h c (List.mem_append.mpr (Or.inr hc))⟩
  · rintro ⟨h1, h2⟩ c hc
    rcases List.mem_append.mp hc with hc | hc
    · exact h1 c hc
    · exact h2 c hc

theorem alpha_take {s : Str} (n : Nat) (h : alpha s) : alpha (s.take n) :=
  fun c hc => h c (List.mem_of_mem_take hc)

theorem alpha_drop {s : Str} (n : Nat) (h : alpha s) : alpha (s.drop n) :=
  fun c hc => h c (List.mem_of_mem_drop hc)

theorem alpha_cons {c : Char} {s : Str} : alpha (c :: s) ↔ c ∈ base62Digits ∧ alpha s := by
  constructor
  · intro h
    exact ⟨h c (List.mem_cons_self c s), fun d hd => h d (List.mem_cons_of_mem c hd)⟩
  · rintro ⟨h1, h2⟩ d hd
    rcases List.mem_cons.mp hd with rfl | hd
    · exact h1
    · exact h2 d hd

theorem alpha_replicate (n : Nat) : alpha (List.replicate n '0') := by
  intro c hc
  rw [(List.mem_replicate.mp hc).2]
  exact zero_mem_base62

/-!
The common-prefix length of midpoint: its characterization.
-/

/-- The first cpl characters of b are a's characters, padded with '0' once a
is exhausted. -/
theorem cpl_take : ∀ (b a : Str),
    b.take (cpl a b) = a.take (cpl a b) ++ List.replicate (cpl a b - a.length) '0' := by
  intro b
  induction b with
  | nil => intro a; cases a <;> simp [cpl]
  | cons b0 bs ih =>
    intro a
    cases a with
    | nil =>
      simp only [cpl]
      split_ifs with h
      · subst h
        rw [List.take_succ_cons]
        have h2 := ih []
        simp only [List.take_nil, List.nil_append, List.length_nil, Nat.sub_zero] at h2 ⊢
        rw [h2, ← List.replicate_succ]
      · simp
    | cons a0 as =>
      simp only [cpl]
      split_ifs with h
      · subst h
        rw [List.take_succ_cons, List.take_succ_cons, List.cons_append,
          List.length_cons, Nat.succ_sub_succ, ih as]
      · simp

/-- When a < b and b does not end in '0', the common prefix never swallows
all of b. -/
theorem cpl_lt_length : ∀ (b a : Str), b ≠ [] → b.getLast? ≠ some '0' →
    strLt a b = true → cpl a b < b.length := by
  intro b
  induction b with
  | nil => intro a h; exact absurd rfl h
  | cons b0 bs ih =>
    intro a _ hlast hord
    cases bs with
    | nil =>
      cases a with
      | nil =>
        simp only [cpl, List.length_cons, List.length_nil]
        split_ifs with h
        · subst h
          simp only [List.getLast?_singleton] at hlast
          exact absurd rfl hlast
        · omega
      | cons a0 as =>
        simp only [cpl, List.length_cons, List.length_nil]
        split_ifs with h
        · subst h
          rw [strLt_cons_iff] at hord
          rcases hord with h' | ⟨_, h'⟩
          · exact absurd h' (lt_irrefl _)
          · rw [strLt_nil_right] at h'
            exact absurd h' (by simp)
        · omega
    | cons b1 bs' =>
      have hlast' : (b1 :: bs').getLast? ≠ some '0' := by
        rwa [List.getLast?_cons_cons] at hlast
      cases a with
      | nil =>
        have hih := ih [] (by simp) hlast' (strLt_nil_left _ (by simp))
        simp only [List.length_cons] at hih
        have hstep : cpl ([] : Str) (b0 :: b1 :: bs') =
            if '0' = b0 then cpl [] (b1 :: bs') + 1 else 0 := rfl
        rw [hstep]
        simp only [List.length_cons]
        split_ifs with h
        · omega
        · omega
      | cons a0 as =>
        simp only [cpl, List.length_cons]
        split_ifs with h
        · subst h
          rw [strLt_cons_iff] at hord
          rcases hord with h' | ⟨_, h'⟩
          · exact absurd h' (lt_irrefl _)
          · have hih := ih as (by simp) hlast' h'
            simp only [List.length_cons] at hih
            omega
        · omega

/-- getLast? is preserved by dropping fewer elements than the length. -/
theorem getLast?_drop {b : Str} {i : Nat} (h : i < b.length) :
    (b.drop i).getLast? = b.getLast? := by
  have hne : b.drop i ≠ [] := by
    apply List.length_pos.mp
    simp only [List.length_drop]
    omega
  conv_rhs => rw [← List.take_append_drop i b]
  rw [List.getLast?_append_of_ne_nil _ hne]

/-!
Correctness of midpoint: on alphabet inputs with a < b (byte-wise, when b is
bounded) and b free of a trailing '0', midpoint returns without panicking a
non-empty alphabet string strictly between a and b that does not end in '0'.
-/

theorem midpoint_spec : ∀ (n : Nat) (a b : Str), a.length + b.length ≤ n →
    alpha a → alpha b → (b ≠ [] → strLt a b = true ∧ b.getLast? ≠ some '0') →
    ∃ m, midpoint a b = .ok m ∧ m ≠ [] ∧ strLt a m = true ∧
      (b ≠ [] → strLt m b = true) ∧ m.getLast? ≠ some '0' ∧ alpha m := by
  intro n
  induction n with
  | zero =>
    intro a b hlen _ _ _
    have ha0 : a = [] := List.eq_nil_of_length_eq_zero (by omega)
    have hb0 : b = [] := List.eq_nil_of_length_eq_zero (by omega)
    subst ha0; subst hb0
    exact ⟨['V'], by decide, by decide, by decide, fun h => absurd rfl h, by decide, by decide⟩
  | succ n ih =>
    intro a b hlen ha hb hord
    rw [midpoint_eq]
    by_cases hA : b ≠ [] ∧ 0 < cpl a b
    · rw [if_pos hA]
      obtain ⟨hbne, hcpl⟩ := hA
      obtain ⟨hord', hlast⟩ := hord hbne
      have hib : cpl a b < b.length := cpl_lt_length b a hbne hlast hord'
      have htake0 := cpl_take b a
      generalize hi : cpl a b = i
      rw [hi] at hcpl hib htake0
      have hdns : b.drop i ≠ [] := by
        apply List.length_pos.mp
        simp only [List.length_drop]
        omega
      have hlastd : (b.drop i).getLast? = b.getLast? := getLast?_drop hib
      by_cases hla : a.length < i
      · rw [if_pos hla]
        obtain ⟨m', heq', hne', _, hlt2', hlast', halpha'⟩ :=
          ih [] (b.drop i)
            (by simp only [List.length_nil, List.length_drop]; omega)
            alpha_nil (alpha_drop _ hb)
            (fun _ => ⟨strLt_nil_left _ hdns, by rw [hlastd]; exact hlast⟩)
        rw [heq']
        have htake : b.take i = a ++ List.replicate (i - a.length) '0' := by
          rwa [List.take_of_length_le (le_of_lt hla)] at htake0
        refine ⟨b.take i ++ m', rfl, ?_, ?_, ?_, ?_, ?_⟩
        · intro hc
          exact hne' (List.append_eq_nil.mp hc).2
        · rw [htake, List.append_assoc]
          apply strLt_grow
          intro hc
          exact hne' (List.append_eq_nil.mp hc).2
        · intro _
          have key : strLt (b.take i ++ m') (b.take i ++ b.drop i) = true := by
            rw [strLt_append_left]
            exact hlt2' hdns
          rwa [List.take_append_drop] at key
        · rw [List.getLast?_append_of_ne_nil _ hne']
          exact hlast'
        · exact alpha_append.mpr ⟨alpha_take _ hb, halpha'⟩
      · rw [if_neg hla]
        push_neg at hla
        have htake : b.take i = a.take i := by
          rw [Nat.sub_eq_zero_of_le hla] at htake0
          simpa using htake0
        have horddrop : strLt (a.drop i) (b.drop i) = true := by
          have key := hord'
          rw [← List.take_append_drop i a] at key
          rw [← List.take_append_drop i b] at key
          rw [htake, strLt_append_left] at key
          exact key
        obtain ⟨m', heq', hne', hlt1', hlt2', hlast', halpha'⟩ :=
          ih (a.drop i) (b.drop i)
            (by simp only [List.length_drop]; omega)
            (alpha_drop _ ha) (alpha_drop _ hb)
            (fun _ => ⟨horddrop, by rw [hlastd]; exact hlast⟩)
        rw [heq']
        refine ⟨b.take i ++ m', rfl, ?_, ?_, ?_, ?_, ?_⟩
        · intro hc
          exact hne' (List.append_eq_nil.mp hc).2
        · have key : strLt (a.take i ++ a.drop i)
              (a.take i ++ m') = true := by
            rw [strLt_append_left]
            exact hlt1'
          rw [List.take_append_drop] at key
          rw [htake]
          exact key
        · intro _
          have key : strLt (b.take i ++ m') (b.take i ++ b.drop i) = true := by
            rw [strLt_append_left]
            exact hlt2' hdns
          rwa [List.take_append_drop] at key
        · rw [List.getLast?_append_of_ne_nil _ hne']
          exact hlast'
        · exact alpha_append.mpr ⟨alpha_take _ hb, halpha'⟩
    · rw [if_neg hA]
      have hdA0 : 0 ≤ digitOfA a := by
        cases a with
        | nil => simp [digitOfA]
        | cons a0 as => exact (strIndex_bounds a0 (ha a0 (List.mem_cons_self _ _))).1
      have hdA61 : digitOfA a ≤ 61 := by
        cases a with
        | nil => simp [digitOfA]
        | cons a0 as =>
          have := (strIndex_bounds a0 (ha a0 (List.mem_cons_self _ _))).2
          have e : digitOfA (a0 :: as) = strIndex base62Digits a0 := rfl
          omega
      have hdB62 : digitOfB b ≤ 62 := by
        cases b with
        | nil => simp [digitOfB]
        | cons b0 bs =>
          have := (strIndex_bounds b0 (hb b0 (List.mem_cons_self _ _))).2
          have e : digitOfB (b0 :: bs) = strIndex base62Digits b0 := rfl
          omega
      have hAB : digitOfA a < digitOfB b := by
        cases b with
        | nil =>
          have e : digitOfB ([] : Str) = 62 := rfl
          omega
        | cons b0 bs =>
          have hb0 : b0 ∈ base62Digits := hb b0 (List.mem_cons_self _ _)
          have hcpl0 : cpl a (b0 :: bs) = 0 := by
            rw [not_and] at hA
            have h2 := hA (by simp)
            omega
          cases a with
          | nil =>
            have hb00 : ¬('0' = b0) := by
              intro he
              rw [show cpl ([] : Str) (b0 :: bs) =
                if '0' = b0 then cpl [] bs + 1 else 0 from rfl, if_pos he] at hcpl0
              omega
            have hbI := strIndex_bounds b0 hb0
            have hz := strIndex_zero_iff b0 hb0
            have hnz : strIndex base62Digits b0 ≠ 0 := fun h0 => hb00 (hz.mp h0).symm
            have e1 : digitOfA ([] : Str) = 0 := rfl
            have e2 : digitOfB (b0 :: bs) = strIndex base62Digits b0 := rfl
            omega
          | cons a0 as =>
            have ha0 : a0 ∈ base62Digits := ha a0 (List.mem_cons_self _ _)
            have hne : a0 ≠ b0 := by
              intro he
              rw [show cpl (a0 :: as) (b0 :: bs) =
                if a0 = b0 then cpl as bs + 1 else 0 from rfl, if_pos he] at hcpl0
              omega
            have hord' := (hord (by simp)).1
            rw [strLt_cons_iff] at hord'
            rcases hord' with hlt | ⟨he, _⟩
            · exact (strIndex_mono a0 ha0 b0 hb0).mp hlt
            · exact absurd he hne
      by_cases h3 : 1 < digitOfB b - digitOfA a
      · rw [if_pos h3]
        have h0s : (0 : Int) ≤ digitOfA a + digitOfB b := by omega
        have hrr : roundHalf (digitOfA a + digitOfB b) =
            (digitOfA a + digitOfB b + 1) / 2 := by rw [roundHalf, if_pos h0s]
        have hrange : digitOfA a + 1 ≤ roundHalf (digitOfA a + digitOfB b) ∧
            roundHalf (digitOfA a + digitOfB b) ≤ digitOfB b - 1 := by
          rw [hrr]
          omega
        have h0r : 0 ≤ roundHalf (digitOfA a + digitOfB b) := by omega
        have hr62 : roundHalf (digitOfA a + digitOfB b) < 62 := by omega
        obtain ⟨hb62eq, hmem, hidx⟩ :=
          base62At_spec (roundHalf (digitOfA a + digitOfB b)).toNat (by omega)
        have hcast : (((roundHalf (digitOfA a + digitOfB b)).toNat : Nat) : Int) =
            roundHalf (digitOfA a + digitOfB b) := Int.toNat_of_nonneg h0r
        rw [hcast] at hb62eq hidx
        rw [hb62eq]
        refine ⟨[base62Digits.getD (roundHalf (digitOfA a + digitOfB b)).toNat '0'],
          rfl, by simp, ?_, ?_, ?_, ?_⟩
        · cases a with
          | nil => exact strLt_nil_left _ (by simp)
          | cons a0 as =>
            rw [strLt_cons_iff]
            left
            apply (strIndex_mono a0 (ha a0 (List.mem_cons_self _ _)) _ hmem).mpr
            rw [hidx]
            have e : digitOfA (a0 :: as) = strIndex base62Digits a0 := rfl
            omega
        · intro hbne
          cases b with
          | nil => exact absurd rfl hbne
          | cons b0 bs =>
            rw [strLt_cons_iff]
            left
            apply (strIndex_mono _ hmem b0 (hb b0 (List.mem_cons_self _ _))).mpr
            rw [hidx]
            have e : digitOfB (b0 :: bs) = strIndex base62Digits b0 := rfl
            omega
        · have hnz := getD_ne_zero (roundHalf (digitOfA a + digitOfB b)).toNat
            (by omega) (by omega)
          simp only [List.getLast?_singleton]
          intro hc
          exact hnz (Option.some_injective _ hc)
        · exact alpha_cons.mpr ⟨hmem, alpha_nil⟩
      · by_cases h4 : 1 < b.length
        · rw [if_neg h3, if_pos h4]
          cases b with
          | nil => simp at h4
          | cons b0 bs =>
            have hb0 : b0 ∈ base62Digits := hb b0 (List.mem_cons_self _ _)
            have e2 : digitOfB (b0 :: bs) = strIndex base62Digits b0 := rfl
            have hbsne : bs ≠ [] := by
              cases bs with
              | nil => simp at h4
              | cons x xs => simp
            refine ⟨(b0 :: bs).take 1, rfl, by simp, ?_, ?_, ?_, ?_⟩
            · cases a with
              | nil => exact strLt_nil_left _ (by simp)
              | cons a0 as =>
                rw [show (b0 :: bs).take 1 = [b0] from rfl, strLt_cons_iff]
                left
                apply (strIndex_mono a0 (ha a0 (List.mem_cons_self _ _)) b0 hb0).mpr
                have e1 : digitOfA (a0 :: as) = strIndex base62Digits a0 := rfl
                omega
            · intro _
              rw [show (b0 :: bs).take 1 = [b0] from rfl, strLt_cons_iff]
              exact Or.inr ⟨rfl, strLt_nil_left _ hbsne⟩
            · rw [show (b0 :: bs).take 1 = [b0] from rfl]
              simp only [List.getLast?_singleton]
              intro hc
              have hz := strIndex_zero_iff b0 hb0
              have hb0z : b0 = '0' := Option.some_injective _ hc
              have : strIndex base62Digits b0 = 0 := hz.mpr hb0z
              omega
            · rw [show (b0 :: bs).take 1 = [b0] from rfl]
              exact alpha_cons.mpr ⟨hb0, alpha_nil⟩
        · rw [if_neg h3, if_neg h4]
          cases a with
          | nil =>
            cases b with
            | nil =>
              exfalso
              apply h3
              have e1 : digitOfA ([] : Str) = 0 := rfl
              have e2 : digitOfB ([] : Str) = 62 := rfl
              omega
            | cons b0 bs =>
              have hbs : bs = [] := by
                cases bs with
                | nil => rfl
                | cons x xs => simp at h4
              subst hbs
              have h620 : base62At (digitOfA ([] : Str)) = .ok '0' := by decide
              rw [h620]
              obtain ⟨m', heq', hne', _, _, hlast', halpha'⟩ :=
                ih [] [] (by simp only [List.length_nil]; omega)
                  alpha_nil alpha_nil (fun h => absurd rfl h)
              rw [show List.drop 1 ([] : Str) = ([] : Str) from rfl, heq']
              refine ⟨'0' :: m', rfl, by simp, ?_, ?_, ?_, ?_⟩
              · exact strLt_nil_left _ (by simp)
              · intro _
                rw [strLt_cons_iff]
                left
                apply (strIndex_mono '0' zero_mem_base62 b0
                  (hb b0 (List.mem_cons_self _ _))).mpr
                have e0 : strIndex base62Digits '0' = 0 := by decide
                have e1 : digitOfA ([] : Str) = 0 := rfl
                have e2 : digitOfB [b0] = strIndex base62Digits b0 := rfl
                omega
              · rw [show ('0' :: m') = ['0'] ++ m' from rfl,
                  List.getLast?_append_of_ne_nil _ hne']
                exact hlast'
              · exact alpha_cons.mpr ⟨zero_mem_base62, halpha'⟩
          | cons a0 as =>
            have ha0 : a0 ∈ base62Digits := ha a0 (List.mem_cons_self _ _)
            have heqa : base62At (digitOfA (a0 :: as)) = .ok a0 := by
              have e : digitOfA (a0 :: as) = strIndex base62Digits a0 := rfl
              rw [e]
              exact strIndex_roundtrip a0 ha0
            rw [heqa]
            obtain ⟨m', heq', hne', hlt1', _, hlast', halpha'⟩ :=
              ih as []
                (by simp only [List.length_cons] at hlen; simp only [List.length_nil]; omega)
                (alpha_cons.mp ha).2 alpha_nil (fun h => absurd rfl h)
            rw [show List.drop 1 (a0 :: as) = as from rfl, heq']
            refine ⟨a0 :: m', rfl, by simp, ?_, ?_, ?_, ?_⟩
            · rw [strLt_cons_iff]
              exact Or.inr ⟨rfl, hlt1'⟩
            · intro hbne
              cases b with
              | nil => exact absurd rfl hbne
              | cons b0 bs =>
                rw [strLt_cons_iff]
                left
                apply (strIndex_mono a0 ha0 b0 (hb b0 (List.mem_cons_self _ _))).mpr
                have e1 : digitOfA (a0 :: as) = strIndex base62Digits a0 := rfl
                have e2 : digitOfB (b0 :: bs) = strIndex base62Digits b0 := rfl
                omega
            · rw [show (a0 :: m') = [a0] ++ m' from rfl,
                List.getLast?_append_of_ne_nil _ hne']
              exact hlast'
            · exact alpha_cons.mpr ⟨ha0, halpha'⟩

/-!
The integer codec: increment and decrement.
-/

theorem char_toNat_inj {c d : Char} (h : c.toNat = d.toNat) : c = d :=
  Char.eq_of_val_eq (UInt32.ext h)

theorem char_toNat_ofNat {n : Nat} (h : n < 1000) : (Char.ofNat n).toNat = n := by
  unfold Char.ofNat
  split
  · rfl
  · rename_i hc
    exact absurd (Or.inl (by omega)) hc

theorem ofNat_mem_base62 : ∀ n : Nat, n < 123 →
    ((48 ≤ n ∧ n ≤ 57) ∨ (65 ≤ n ∧ n ≤ 90) ∨ (97 ≤ n ∧ n ≤ 122)) →
    Char.ofNat n ∈ base62Digits := by decide

theorem strIndex_61_iff : ∀ c ∈ base62Digits,
    (strIndex base62Digits c = 61 ↔ c = 'z') := by decide

/-- The head-class characterization of getIntLen in terms of character
codes: lowercase heads a..z declare length code - 95, uppercase heads A..Z
declare length 92 - code. -/
theorem getIntLen_eq_some (c : Char) (e : Nat) : getIntLen c = some e ↔
    ((97 ≤ c.toNat ∧ c.toNat ≤ 122 ∧ e = c.toNat - 95) ∨
     (65 ≤ c.toNat ∧ c.toNat ≤ 90 ∧ e = 92 - c.toNat)) := by
  unfold getIntLen
  split_ifs with h1 h2
  · have ha : 97 ≤ c.toNat := h1.1
    have hz : c.toNat ≤ 122 := h1.2
    have hca : ('a' : Char).toNat = 97 := rfl
    simp only [Option.some.injEq]
    constructor
    · intro he
      left
      omega
    · rintro (⟨_, _, he⟩ | ⟨_, h90, _⟩)
      · omega
      · omega
  · have hA : 65 ≤ c.toNat := h2.1
    have hZ : c.toNat ≤ 90 := h2.2
    have h1' : ¬(97 ≤ c.toNat ∧ c.toNat ≤ 122) := h1
    have hcz : ('Z' : Char).toNat = 90 := rfl
    simp only [Option.some.injEq]
    constructor
    · intro he
      right
      omega
    · rintro (⟨h97, _, _⟩ | ⟨_, _, he⟩)
      · omega
      · omega
  · have h1' : ¬(97 ≤ c.toNat ∧ c.toNat ≤ 122) := h1
    have h2' : ¬(65 ≤ c.toNat ∧ c.toNat ≤ 90) := h2
    constructor
    · intro he
      exact absurd he (by simp)
    · rintro (⟨hx, hy, _⟩ | ⟨hx, hy, _⟩)
      · exact absurd ⟨hx, hy⟩ h1'
      · exact absurd ⟨hx, hy⟩ h2'

theorem validateInt_cons {h : Char} {t : Str} :
    validateInt (h :: t) = true ↔ getIntLen h = some (t.length + 1) := by
  cases hg : getIntLen h with
  | none => simp [validateInt, hg]
  | some e =>
    simp only [validateInt, hg]
    simp only [List.length_cons, Option.some.injEq, decide_eq_true_eq]
    omega

theorem smallestInt_eq : smallestInt = 'A' :: List.replicate 26 '0' := by decide

/-- The carry loop: on alphabet digits it never panics, preserves length and
alphabet membership, carries out exactly on all-'z' input (then producing
all '0'), and otherwise strictly increases the digit string. -/
theorem incDigits_spec : ∀ (ds : List Char), alpha ds →
    ∃ ds' carry, incDigits ds = .ok (ds', carry) ∧ ds'.length = ds.length ∧ alpha ds' ∧
      (carry = true ↔ ∀ d ∈ ds, d = 'z') ∧
      (carry = true → ∀ d ∈ ds', d = '0') ∧
      (carry = false → strLt ds ds' = true) ∧
      (carry = false → ∃ k ∈ ds', k ≠ '0') := by
  intro ds halpha
  induction ds with
  | nil =>
    refine ⟨[], true, rfl, rfl, alpha_nil, by simp, ?_, by simp, by simp⟩
    intro _ d hd
    cases hd
  | cons d rest ih =>
    obtain ⟨ds', carry, heq, hlen, halpha', hcz, hc0, hns, hnz⟩ :=
      ih (alpha_cons.mp halpha).2
    have hd : d ∈ base62Digits := (alpha_cons.mp halpha).1
    have hdb := strIndex_bounds d hd
    by_cases hcarry : carry = true
    · subst hcarry
      by_cases hz : strIndex base62Digits d + 1 = 62
      · have hdz : d = 'z' := (strIndex_61_iff d hd).mp (by omega)
        refine ⟨'0' :: ds', true, ?_, by simp [hlen], ?_, ?_, ?_, by simp, by simp⟩
        · simp only [incDigits, heq, GRes.bind, if_pos hz]
          rfl
        · exact alpha_cons.mpr ⟨zero_mem_base62, halpha'⟩
        · constructor
          · intro _ x hx
            rcases List.mem_cons.mp hx with rfl | hx
            · exact hdz
            · exact hcz.mp rfl x hx
          · intro _
            rfl
        · intro _ x hx
          rcases List.mem_cons.mp hx with rfl | hx
          · rfl
          · exact hc0 rfl x hx
      · have hle : (strIndex base62Digits d + 1).toNat < 62 := by omega
        obtain ⟨hb62eq, hmem, hidx⟩ := base62At_spec (strIndex base62Digits d + 1).toNat hle
        have hcast : (((strIndex base62Digits d + 1).toNat : Nat) : Int) =
            strIndex base62Digits d + 1 := Int.toNat_of_nonneg (by omega)
        rw [hcast] at hb62eq hidx
        refine ⟨base62Digits.getD (strIndex base62Digits d + 1).toNat '0' :: ds', false,
          ?_, by simp [hlen], ?_, ?_, ?_, ?_, ?_⟩
        · simp only [incDigits, heq, GRes.bind, if_neg hz, hb62eq, GRes.map]
          rfl
        · exact alpha_cons.mpr ⟨hmem, halpha'⟩
        · constructor
          · intro hc
            exact absurd hc (by simp)
          · intro hall
            exfalso
            apply hz
            have hdz : d = 'z' := hall d (List.mem_cons_self _ _)
            have h61 : strIndex base62Digits d = 61 := (strIndex_61_iff d hd).mpr hdz
            omega
        · intro hc
          exact absurd hc (by simp)
        · intro _
          rw [strLt_cons_iff]
          left
          exact (strIndex_mono d hd _ hmem).mpr (by omega)
        · intro _
          refine ⟨_, List.mem_cons_self _ _, ?_⟩
          exact getD_ne_zero _ (by omega) (by omega)
    · have hcf : carry = false := by
        cases carry
        · rfl
        · exact absurd rfl hcarry
      subst hcf
      refine ⟨d :: ds', false, ?_, by simp [hlen], ?_, ?_, by simp, ?_, ?_⟩
      · simp only [incDigits, heq, GRes.bind]
        rfl
      · exact alpha_cons.mpr ⟨hd, halpha'⟩
      · constructor
        · intro hc
          exact absurd hc (by simp)
        · intro hall
          have : ∀ x ∈ rest, x = 'z' := fun x hx => hall x (List.mem_cons_of_mem d hx)
          have := hcz.mpr this
          exact absurd this (by simp)
      · intro _
        rw [strLt_cons_iff]
        exact Or.inr ⟨rfl, hns rfl⟩
      · intro _
        obtain ⟨k, hk, hknz⟩ := hnz rfl
        exact ⟨k, List.mem_cons_of_mem d hk, hknz⟩

/-- The borrow loop: on alphabet digits it never panics, preserves length and
alphabet membership, borrows out exactly on all-'0' input (then producing
all 'z'), and otherwise strictly decreases the digit string. -/
theorem decDigits_spec : ∀ (ds : List Char), alpha ds →
    ∃ ds' borrow, decDigits ds = .ok (ds', borrow) ∧ ds'.length = ds.length ∧ alpha ds' ∧
      (borrow = true ↔ ∀ d ∈ ds, d = '0') ∧
      (borrow = true → ∀ d ∈ ds', d = 'z') ∧
      (borrow = false → strLt ds' ds = true) := by
  intro ds halpha
  induction ds with
  | nil =>
    refine ⟨[], true, rfl, rfl, alpha_nil, by simp, ?_, by simp⟩
    intro _ d hd
    cases hd
  | cons d rest ih =>
    obtain ⟨ds', borrow, heq, hlen, halpha', hcz, hc0, hns⟩ :=
      ih (alpha_cons.mp halpha).2
    have hd : d ∈ base62Digits := (alpha_cons.mp halpha).1
    have hdb := strIndex_bounds d hd
    by_cases hborrow : borrow = true
    · subst hborrow
      by_cases hz : strIndex base62Digits d - 1 = -1
      · have hdz : d = '0' := (strIndex_zero_iff d hd).mp (by omega)
        refine ⟨'z' :: ds', true, ?_, by simp [hlen], ?_, ?_, ?_, by simp⟩
        · simp only [decDigits, heq, GRes.bind, if_pos hz]
          rfl
        · exact alpha_cons.mpr ⟨by decide, halpha'⟩
        · constructor
          · intro _ x hx
            rcases List.mem_cons.mp hx with rfl | hx
            · exact hdz
            · exact hcz.mp rfl x hx
          · intro _
            rfl
        · intro _ x hx
          rcases List.mem_cons.mp hx with rfl | hx
          · rfl
          · exact hc0 rfl x hx
      · have hle : (strIndex base62Digits d - 1).toNat < 62 := by omega
        obtain ⟨hb62eq, hmem, hidx⟩ := base62At_spec (strIndex base62Digits d - 1).toNat hle
        have hcast : (((strIndex base62Digits d - 1).toNat : Nat) : Int) =
            strIndex base62Digits d - 1 := Int.toNat_of_nonneg (by omega)
        rw [hcast] at hb62eq hidx
        refine ⟨base62Digits.getD (strIndex base62Digits d - 1).toNat '0' :: ds', false,
          ?_, by simp [hlen], ?_, ?_, ?_, ?_⟩
        · simp only [decDigits, heq, GRes.bind, if_neg hz, hb62eq, GRes.map]
          rfl
        · exact alpha_cons.mpr ⟨hmem, halpha'⟩
        · constructor
          · intro hc
            exact absurd hc (by simp)
          · intro hall
            exfalso
            apply hz
            have hd0 : d = '0' := hall d (List.mem_cons_self _ _)
            have h0 : strIndex base62Digits d = 0 := (strIndex_zero_iff d hd).mpr hd0
            omega
        · intro hc
          exact absurd hc (by simp)
        · intro _
          rw [strLt_cons_iff]
          left
          exact (strIndex_mono _ hmem d hd).mpr (by omega)
    · have hbf : borrow = false := by
        cases borrow
        · rfl
        · exact absurd rfl hborrow
      subst hbf
      refine ⟨d :: ds', false, ?_, by simp [hlen], ?_, ?_, by simp, ?_⟩
      · simp only [decDigits, heq, GRes.bind]
        rfl
      · exact alpha_cons.mpr ⟨hd, halpha'⟩
      · constructor
        · intro hc
          exact absurd hc (by simp)
        · intro hall
          have : ∀ x ∈ rest, x = '0' := fun x hx => hall x (List.mem_cons_of_mem d hx)
          have := hcz.mpr this
          exact absurd this (by simp)
      · intro _
        rw [strLt_cons_iff]
        exact Or.inr ⟨rfl, hns rfl⟩

theorem incrementInt_cons {h : Char} {t : Str} (hv : validateInt (h :: t) = true) :
    incrementInt (h :: t) = (incDigits t).bind fun p =>
      if p.2 then
        if h = 'Z' then .ok zero
        else if h = 'z' then .ok []
        else if 'a' < Char.ofNat (h.toNat + 1) then
          .ok (Char.ofNat (h.toNat + 1) :: (p.1 ++ ['0']))
        else .ok (Char.ofNat (h.toNat + 1) :: p.1.drop 1)
      else .ok (h :: p.1) := by
  unfold incrementInt
  rw [hv, if_neg (by decide)]

theorem decrementInt_cons {h : Char} {t : Str} (hv : validateInt (h :: t) = true) :
    decrementInt (h :: t) = (decDigits t).bind fun p =>
      if p.2 then
        if h = 'a' then .ok ('Z' :: ['z'])
        else if h = 'A' then .ok []
        else if Char.ofNat (h.toNat - 1) < 'Z' then
          .ok (Char.ofNat (h.toNat - 1) :: (p.1 ++ ['z']))
        else .ok (Char.ofNat (h.toNat - 1) :: p.1.drop 1)
      else .ok (h :: p.1) := by
  unfold decrementInt
  rw [hv, if_neg (by decide)]

/-- Correctness of incrementInt on a well-formed alphabet integer part: it
never fails, signals overflow exactly on the all-'z' maximal input, and
otherwise returns a strictly larger well-formed alphabet integer part that is
never the reserved sentinel. -/
theorem incrementInt_spec {x : Str} (hv : validateInt x = true) (ha : alpha x) :
    ∃ i, incrementInt x = .ok i ∧
      (i = [] ↔ ∃ t, x = 'z' :: t ∧ ∀ d ∈ t, d = 'z') ∧
      (i ≠ [] → validateInt i = true ∧ alpha i ∧ strLt x i = true ∧ i ≠ smallestInt) := by
  cases x with
  | nil => exact absurd hv (by simp [validateInt])
  | cons h t =>
    have hgl : getIntLen h = some (t.length + 1) := validateInt_cons.mp hv
    have hclass := (getIntLen_eq_some h (t.length + 1)).mp hgl
    have hh : h ∈ base62Digits := (alpha_cons.mp ha).1
    obtain ⟨ds', carry, heq, hlen, halpha', hcz, hc0, hns, hnz⟩ :=
      incDigits_spec t (alpha_cons.mp ha).2
    by_cases hcarry : carry = true
    · subst hcarry
      have htz : ∀ d ∈ t, d = 'z' := hcz.mp rfl
      have hd0 : ∀ d ∈ ds', d = '0' := hc0 rfl
      by_cases hZ : h = 'Z'
      · subst hZ
        refine ⟨zero, ?_, ?_, ?_⟩
        · rw [incrementInt_cons hv, heq]
          rfl
        · constructor
          · intro hc
            exact absurd hc (by decide)
          · rintro ⟨t', het, _⟩
            have : ('Z' : Char) = 'z' := (List.cons.injEq _ _ _ _ ▸ het).1
            exact absurd this (by decide)
        · intro _
          refine ⟨by decide, by decide, ?_, by decide⟩
          rw [show zero = 'a' :: ['0'] from rfl, strLt_cons_iff]
          exact Or.inl (by decide)
      · by_cases hz2 : h = 'z'
        · subst hz2
          refine ⟨[], ?_, ?_, ?_⟩
          · rw [incrementInt_cons hv, heq]
            rfl
          · exact ⟨fun _ => ⟨t, rfl, htz⟩, fun _ => rfl⟩
          · intro hne
            exact absurd rfl hne
        · have hle122 : h.toNat ≤ 122 := by
            rcases hclass with ⟨_, hb, _⟩ | ⟨_, hb, _⟩ <;> omega
          have hofNat : (Char.ofNat (h.toNat + 1)).toNat = h.toNat + 1 :=
            char_toNat_ofNat (by omega)
          have hz122 : h.toNat ≠ 122 := fun hc => hz2 (@char_toNat_inj h 'z' hc)
          have h90' : h.toNat ≠ 90 := fun hc => hZ (@char_toNat_inj h 'Z' hc)
          have hlt_head : h < Char.ofNat (h.toNat + 1) := by
            show h.toNat < (Char.ofNat (h.toNat + 1)).toNat
            omega
          have hca : ('a' : Char).toNat = 97 := rfl
          have hcA : ('A' : Char).toNat = 65 := rfl
          rcases hclass with ⟨h97, h122, hlen'⟩ | ⟨h65, h90, hlen'⟩
          · -- lowercase head: a trailing '0' digit is appended
            have hlt : 'a' < Char.ofNat (h.toNat + 1) := by
              show ('a' : Char).toNat < (Char.ofNat (h.toNat + 1)).toNat
              omega
            refine ⟨Char.ofNat (h.toNat + 1) :: (ds' ++ ['0']), ?_, ?_, ?_⟩
            · rw [incrementInt_cons hv, heq]
              show (if h = 'Z' then GRes.ok zero
                else if h = 'z' then GRes.ok []
                else if 'a' < Char.ofNat (h.toNat + 1) then
                  GRes.ok (Char.ofNat (h.toNat + 1) :: (ds' ++ ['0']))
                else GRes.ok (Char.ofNat (h.toNat + 1) :: ds'.drop 1)) = _
              rw [if_neg hZ, if_neg hz2, if_pos hlt]
            · constructor
              · intro hc
                exact absurd hc (by simp)
              · rintro ⟨t', het, _⟩
                exact absurd (List.cons.injEq _ _ _ _ ▸ het).1 hz2
            · intro _
              refine ⟨?_, ?_, ?_, ?_⟩
              · rw [validateInt_cons, getIntLen_eq_some]
                left
                simp only [List.length_append, List.length_cons, List.length_nil, hlen]
                omega
              · exact alpha_cons.mpr ⟨ofNat_mem_base62 _ (by omega) (by omega),
                  alpha_append.mpr ⟨halpha', alpha_cons.mpr ⟨zero_mem_base62, alpha_nil⟩⟩⟩
              · rw [strLt_cons_iff]
                exact Or.inl hlt_head
              · rw [smallestInt_eq]
                intro hsm
                have hhead := (List.cons.injEq _ _ _ _ ▸ hsm).1
                have := congrArg Char.toNat hhead
                rw [hofNat, hcA] at this
                omega
          · -- uppercase head (not Z): one leading digit is dropped
            have hnlt : ¬('a' < Char.ofNat (h.toNat + 1)) := by
              show ¬(('a' : Char).toNat < (Char.ofNat (h.toNat + 1)).toNat)
              omega
            refine ⟨Char.ofNat (h.toNat + 1) :: ds'.drop 1, ?_, ?_, ?_⟩
            · rw [incrementInt_cons hv, heq]
              show (if h = 'Z' then GRes.ok zero
                else if h = 'z' then GRes.ok []
                else if 'a' < Char.ofNat (h.toNat + 1) then
                  GRes.ok (Char.ofNat (h.toNat + 1) :: (ds' ++ ['0']))
                else GRes.ok (Char.ofNat (h.toNat + 1) :: ds'.drop 1)) = _
              rw [if_neg hZ, if_neg hz2, if_neg hnlt]
            · constructor
              · intro hc
                exact absurd hc (by simp)
              · rintro ⟨t', het, _⟩
                exact absurd (List.cons.injEq _ _ _ _ ▸ het).1 hz2
            · intro _
              refine ⟨?_, ?_, ?_, ?_⟩
              · rw [validateInt_cons, getIntLen_eq_some]
                right
                simp only [List.length_drop, hlen]
                omega
              · exact alpha_cons.mpr ⟨ofNat_mem_base62 _ (by omega) (by omega),
                  alpha_drop _ halpha'⟩
              · rw [strLt_cons_iff]
                exact Or.inl hlt_head
              · rw [smallestInt_eq]
                intro hsm
                have hhead := (List.cons.injEq _ _ _ _ ▸ hsm).1
                have := congrArg Char.toNat hhead
                rw [hofNat, hcA] at this
                omega
    · have hcf : carry = false := by
        cases carry
        · rfl
        · exact absurd rfl hcarry
      subst hcf
      refine ⟨h :: ds', ?_, ?_, ?_⟩
      · rw [incrementInt_cons hv, heq]
        rfl
      · constructor
        · intro hc
          exact absurd hc (by simp)
        · rintro ⟨t', het, hallz⟩
          have ht' : t = t' := (List.cons.injEq _ _ _ _ ▸ het).2
          have : ∀ d ∈ t, d = 'z' := by
            rw [ht']
            exact hallz
          exact absurd (hcz.mpr this) (by simp)
      · intro _
        refine ⟨?_, ?_, ?_, ?_⟩
        · rw [validateInt_cons, hlen]
          exact hgl
        · exact alpha_cons.mpr ⟨hh, halpha'⟩
        · rw [strLt_cons_iff]
          exact Or.inr ⟨rfl, hns rfl⟩
        · rw [smallestInt_eq]
          intro hsm
          obtain ⟨k, hk, hknz⟩ := hnz rfl
          have hds : ds' = List.replicate 26 '0' := (List.cons.injEq _ _ _ _ ▸ hsm).2
          rw [hds] at hk
          exact hknz (List.mem_replicate.mp hk).2

/-- Correctness of decrementInt on a well-formed alphabet integer part: it
never fails, signals underflow exactly on the reserved sentinel, and
otherwise returns a strictly smaller well-formed alphabet integer part. -/
theorem decrementInt_spec {x : Str} (hv : validateInt x = true) (ha : alpha x) :
    ∃ d, decrementInt x = .ok d ∧
      (d = [] ↔ x = smallestInt) ∧
      (d ≠ [] → validateInt d = true ∧ alpha d ∧ strLt d x = true) := by
  cases x with
  | nil => exact absurd hv (by simp [validateInt])
  | cons h t =>
    have hgl : getIntLen h = some (t.length + 1) := validateInt_cons.mp hv
    have hclass := (getIntLen_eq_some h (t.length + 1)).mp hgl
    have hh : h ∈ base62Digits := (alpha_cons.mp ha).1
    obtain ⟨ds', borrow, heq, hlen, halpha', hcz, hc0, hns⟩ :=
      decDigits_spec t (alpha_cons.mp ha).2
    have hca : ('a' : Char).toNat = 97 := rfl
    have hcA : ('A' : Char).toNat = 65 := rfl
    have hcZ : ('Z' : Char).toNat = 90 := rfl
    by_cases hborrow : borrow = true
    · subst hborrow
      have ht0 : ∀ d ∈ t, d = '0' := hcz.mp rfl
      have hdz : ∀ d ∈ ds', d = 'z' := hc0 rfl
      by_cases hA : h = 'A'
      · subst hA
        refine ⟨[], ?_, ?_, ?_⟩
        · rw [decrementInt_cons hv, heq]
          rfl
        · constructor
          · intro _
            rw [smallestInt_eq]
            have htlen : t.length = 26 := by
              rcases hclass with ⟨hx, _, _⟩ | ⟨_, _, hlen'⟩
              · rw [hcA] at hx; omega
              · rw [hcA] at hlen'; omega
            have : t = List.replicate 26 '0' :=
              List.eq_replicate_iff.mpr ⟨htlen, ht0⟩
            rw [this]
          · intro _
            rfl
        · intro hne
          exact absurd rfl hne
      · by_cases ha2 : h = 'a'
        · subst ha2
          refine ⟨'Z' :: ['z'], ?_, ?_, ?_⟩
          · rw [decrementInt_cons hv, heq]
            rfl
          · constructor
            · intro hc
              exact absurd hc (by simp)
            · intro hsm
              rw [smallestInt_eq] at hsm
              exact absurd (List.cons.injEq _ _ _ _ ▸ hsm).1 (by decide)
          · intro _
            have htlen : t.length = 1 := by
              rcases hclass with ⟨_, _, hlen'⟩ | ⟨_, hx, _⟩
              · rw [hca] at hlen'; omega
              · rw [hca] at hx; omega
            refine ⟨by decide, by decide, ?_⟩
            rw [strLt_cons_iff]
            exact Or.inl (by decide)
        · have h65 : 65 ≤ h.toNat := by
            rcases hclass with ⟨hx, _, _⟩ | ⟨hx, _, _⟩ <;> omega
          have hA65 : h.toNat ≠ 65 := fun hc => hA (@char_toNat_inj h 'A' hc)
          have ha97 : h.toNat ≠ 97 := fun hc => ha2 (@char_toNat_inj h 'a' hc)
          have hofNat : (Char.ofNat (h.toNat - 1)).toNat = h.toNat - 1 := by
            apply char_toNat_ofNat
            rcases hclass with ⟨_, hx, _⟩ | ⟨_, hx, _⟩ <;> omega
          have hlt_head : Char.ofNat (h.toNat - 1) < h := by
            show (Char.ofNat (h.toNat - 1)).toNat < h.toNat
            omega
          rcases hclass with ⟨h97, h122, hlen'⟩ | ⟨h65', h90, hlen'⟩
          · -- lowercase head (not a): one leading digit is dropped
            have hnlt : ¬(Char.ofNat (h.toNat - 1) < 'Z') := by
              show ¬((Char.ofNat (h.toNat - 1)).toNat < ('Z' : Char).toNat)
              rw [hofNat, hcZ]
              omega
            refine ⟨Char.ofNat (h.toNat - 1) :: ds'.drop 1, ?_, ?_, ?_⟩
            · rw [decrementInt_cons hv, heq]
              show (if h = 'a' then GRes.ok ('Z' :: ['z'])
                else if h = 'A' then GRes.ok []
                else if Char.ofNat (h.toNat - 1) < 'Z' then
                  GRes.ok (Char.ofNat (h.toNat - 1) :: (ds' ++ ['z']))
                else GRes.ok (Char.ofNat (h.toNat - 1) :: ds'.drop 1)) = _
              rw [if_neg ha2, if_neg hA, if_neg hnlt]
            · constructor
              · intro hc
                exact absurd hc (by simp)
              · intro hsm
                exfalso
                rw [smallestInt_eq] at hsm
                exact hA (List.cons.injEq _ _ _ _ ▸ hsm).1
            · intro _
              refine ⟨?_, ?_, ?_⟩
              · rw [validateInt_cons, getIntLen_eq_some]
                left
                simp only [List.length_drop, hlen]
                omega
              · exact alpha_cons.mpr ⟨ofNat_mem_base62 _ (by omega) (by omega),
                  alpha_drop _ halpha'⟩
              · rw [strLt_cons_iff]
                exact Or.inl hlt_head
          · -- uppercase head (not A): a trailing 'z' digit is appended
            have hlt : Char.ofNat (h.toNat - 1) < 'Z' := by
              show (Char.ofNat (h.toNat - 1)).toNat < ('Z' : Char).toNat
              rw [hofNat, hcZ]
              omega
            refine ⟨Char.ofNat (h.toNat - 1) :: (ds' ++ ['z']), ?_, ?_, ?_⟩
            · rw [decrementInt_cons hv, heq]
              show (if h = 'a' then GRes.ok ('Z' :: ['z'])
                else if h = 'A' then GRes.ok []
                else if Char.ofNat (h.toNat - 1) < 'Z' then
                  GRes.ok (Char.ofNat (h.toNat - 1) :: (ds' ++ ['z']))
                else GRes.ok (Char.ofNat (h.toNat - 1) :: ds'.drop 1)) = _
              rw [if_neg ha2, if_neg hA, if_pos hlt]
            · constructor
              · intro hc
                exact absurd hc (by simp)
              · intro hsm
                exfalso
                rw [smallestInt_eq] at hsm
                exact hA (List.cons.injEq _ _ _ _ ▸ hsm).1
            · intro _
              refine ⟨?_, ?_, ?_⟩
              · rw [validateInt_cons, getIntLen_eq_some]
                right
                simp only [List.length_append, List.length_cons, List.length_nil, hlen]
                omega
              · refine alpha_cons.mpr ⟨ofNat_mem_base62 _ (by omega) (by omega), ?_⟩
                exact alpha_append.mpr ⟨halpha', alpha_cons.mpr ⟨by decide, alpha_nil⟩⟩
              · rw [strLt_cons_iff]
                exact Or.inl hlt_head
    · have hbf : borrow = false := by
        cases borrow
        · rfl
        · exact absurd rfl hborrow
      subst hbf
      refine ⟨h :: ds', ?_, ?_, ?_⟩
      · rw [decrementInt_cons hv, heq]
        rfl
      · constructor
        · intro hc
          exact absurd hc (by simp)
        · intro hsm
          rw [smallestInt_eq] at hsm
          have ht' : t = List.replicate 26 '0' := (List.cons.injEq _ _ _ _ ▸ hsm).2
          have : ∀ d ∈ t, d = '0' := by
            rw [ht']
            intro d hd
            exact (List.mem_replicate.mp hd).2
          exact absurd (hcz.mpr this) (by simp)
      · intro _
        refine ⟨?_, ?_, ?_⟩
        · rw [validateInt_cons, hlen]
          exact hgl
        · exact alpha_cons.mpr ⟨hh, halpha'⟩
        · rw [strLt_cons_iff]
          exact Or.inr ⟨rfl, hns rfl⟩

/-!
Support lemmas for KeyBetween: decomposition of keys into integer and
fractional parts, and validity of reassembled keys.
-/

/-- A key whose integer part parses is a wellformed integer part followed by
the rest. -/
theorem getIntPart_spec {key ip : Str} (h : getIntPart key = some ip) :
    validateInt ip = true ∧ key.take ip.length = ip := by
  cases key with
  | nil => cases h
  | cons k0 rest =>
    cases hg : getIntLen k0 with
    | none =>
      simp only [getIntPart, hg] at h
      exact Option.noConfusion h
    | some n =>
      simp only [getIntPart, hg] at h
      split_ifs at h with hl
      cases h
      have hbound := (getIntLen_eq_some k0 n).mp hg
      have hn2 : 2 ≤ n := by rcases hbound with ⟨_, _, _⟩ | ⟨_, _, _⟩ <;> omega
      have hnlen : n ≤ (k0 :: rest).length := by omega
      have hlen : ((k0 :: rest).take n).length = n := by
        rw [List.length_take]
        omega
      constructor
      · cases n with
        | zero => omega
        | succ n' =>
          rw [List.take_succ_cons, validateInt_cons]
          have : (rest.take n').length = n' := by
            rw [List.length_take]
            simp only [List.length_cons] at hnlen
            omega
          rw [this]
          exact hg
      · rw [hlen]

/-- getIntPart of a wellformed integer part returns the whole string. -/
theorem getIntPart_of_validateInt {i : Str} (hv : validateInt i = true) :
    getIntPart i = some i := by
  cases i with
  | nil => exact absurd hv (by simp [validateInt])
  | cons h t =>
    have hgl : getIntLen h = some (t.length + 1) := validateInt_cons.mp hv
    simp only [getIntPart, hgl, List.length_cons]
    rw [if_neg (by omega)]
    rw [List.take_of_length_le (by simp)]

/-- getIntPart of a wellformed integer part with anything appended returns
the integer part. -/
theorem getIntPart_append {i f : Str} (hv : validateInt i = true) :
    getIntPart (i ++ f) = some i := by
  cases i with
  | nil => exact absurd hv (by simp [validateInt])
  | cons h t =>
    have hgl : getIntLen h = some (t.length + 1) := validateInt_cons.mp hv
    simp only [List.cons_append, getIntPart, hgl]
    rw [if_neg (by simp only [List.length_cons, List.length_append]; omega)]
    rw [show (t.length + 1) = ((h :: t) : Str).length from by simp,
      ← List.cons_append, List.take_left]

/-- The definitional content of validateOrderKey. -/
theorem validateOrderKey_iff {k : Str} : validateOrderKey k = true ↔
    k ≠ smallestInt ∧
      ∃ ip, getIntPart k = some ip ∧ (k.drop ip.length).getLast? ≠ some '0' := by
  unfold validateOrderKey
  split_ifs with hs
  · subst hs
    simp
  · cases hg : getIntPart k with
    | none => simp [hg]
    | some ip =>
      simp only [hg, Option.some.injEq, Bool.not_eq_eq_eq_not, Bool.not_true,
        beq_eq_false_iff_ne, ne_eq, decide_eq_true_eq]
      constructor
      · intro hne
        exact ⟨hs, ip, rfl, hne⟩
      · rintro ⟨_, ip', hip', hne⟩
        rw [hip']
        exact hne

/-- Appending a non-empty fractional part to a wellformed integer part never
produces the sentinel. -/
theorem append_ne_smallestInt {i f : Str} (hv : validateInt i = true) (hf : f ≠ []) :
    i ++ f ≠ smallestInt := by
  cases i with
  | nil => exact absurd hv (by simp [validateInt])
  | cons h t =>
    have hgl : getIntLen h = some (t.length + 1) := validateInt_cons.mp hv
    intro he
    rw [smallestInt_eq, List.cons_append] at he
    have hhead : h = 'A' := (List.cons.injEq _ _ _ _ ▸ he).1
    have htail : t ++ f = List.replicate 26 '0' := (List.cons.injEq _ _ _ _ ▸ he).2
    subst hhead
    have hA : getIntLen 'A' = some 27 := by decide
    rw [hA] at hgl
    have h26 : t.length = 26 := by
      have := Option.some_injective _ hgl
      omega
    have hflen : f.length = 0 := by
      have := congrArg List.length htail
      simp only [List.length_append, List.length_replicate] at this
      omega
    exact hf (List.eq_nil_of_length_eq_zero hflen)

/-- A wellformed integer part other than the sentinel is a valid order key. -/
theorem validateOrderKey_int {i : Str} (hv : validateInt i = true)
    (hs : i ≠ smallestInt) : validateOrderKey i = true := by
  rw [validateOrderKey_iff]
  refine ⟨hs, i, getIntPart_of_validateInt hv, ?_⟩
  rw [List.drop_length]
  simp

/-- A valid order key built from a wellformed integer part and a fractional
part without trailing '0'. -/
theorem validateOrderKey_append {i f : Str} (hv : validateInt i = true)
    (hs : i ++ f ≠ smallestInt) (hf : f.getLast? ≠ some '0') :
    validateOrderKey (i ++ f) = true := by
  rw [validateOrderKey_iff]
  refine ⟨hs, i, getIntPart_append hv, ?_⟩
  rw [List.drop_left]
  exact hf

/-- Self-delimitation: a wellformed integer part that is a prefix of a key is
that key's integer part. -/
theorem intPart_of_take {ia b ib : Str} (hva : validateInt ia = true)
    (hib : getIntPart b = some ib) (hpre : ia <+: b) : ib = ia := by
  obtain ⟨u, rfl⟩ := hpre
  rw [getIntPart_append hva] at hib
  exact (Option.some_injective _ hib).symm

/-- A string strictly above an all-'z' block (with junk appended) begins with
that block, provided its characters are in the alphabet. -/
theorem allz_lead : ∀ (k : Nat) (t u : Str), alpha t →
    strLt (List.replicate k 'z' ++ u) t = true → List.replicate k 'z' <+: t := by
  intro k
  induction k with
  | zero => intro t u _ _; exact List.nil_prefix
  | succ k' ih =>
    intro t u ht hord
    cases t with
    | nil => rw [strLt_nil_right] at hord; exact absurd hord (by simp)
    | cons c t' =>
      rw [List.replicate_succ, List.cons_append, strLt_cons_iff] at hord
      have hc : c ∈ base62Digits := ht c (List.mem_cons_self _ _)
      have hle : c ≤ 'z' := alpha_le_z c hc
      rcases hord with hlt | ⟨heq, hord⟩
      · exact absurd hlt (not_lt.mpr hle)
      · rw [List.replicate_succ]
        exact List.cons_prefix_cons.mpr
          ⟨heq, ih t' u (alpha_cons.mp ht).2 hord⟩

/-- A valid order key over the alphabet. -/
def GoodKey (k : Str) : Prop := validateOrderKey k = true ∧ alpha k

theorem GoodKey.ne_nil {k : Str} (h : GoodKey k) : k ≠ [] := by
  intro he
  subst he
  exact absurd h.1 (by decide)

theorem not_prefix_of_lt_int {ia i : Str} (hva : validateInt ia = true)
    (hvi : validateInt i = true) (hlt : strLt ia i = true) : ¬ ia <+: i := by
  intro hp
  have hthis := intPart_of_take hva (getIntPart_of_validateInt hvi) hp
  exact strLt_ne hlt hthis.symm

/-!
Correctness of KeyBetween: for bounds that are empty or valid alphabet keys,
in order, it returns without error or panic a key strictly between the
bounds.  The returned key is itself a valid alphabet key, except in one case:
when a is empty, decrementing b's integer part can land exactly on the
reserved sentinel smallestInt, which KeyBetween returns although
validateOrderKey rejects it.
-/

theorem keyBetween_spec (a b : Str) (hga : a = [] ∨ GoodKey a) (hgb : b = [] ∨ GoodKey b)
    (hab : a ≠ [] → b ≠ [] → strLt a b = true) :
    ∃ m, KeyBetween a b = .ok m ∧ (a ≠ [] → strLt a m = true) ∧
      (b ≠ [] → strLt m b = true) ∧ (GoodKey m ∨ (m = smallestInt ∧ a = [] ∧ b ≠ [])) := by
  have hc1 : ¬(a ≠ [] ∧ validateOrderKey a = false) := by
    rintro ⟨hne, hf⟩
    rcases hga with rfl | hg
    · exact hne rfl
    · rw [hg.1] at hf
      exact absurd hf (by simp)
  have hc2 : ¬(b ≠ [] ∧ validateOrderKey b = false) := by
    rintro ⟨hne, hf⟩
    rcases hgb with rfl | hg
    · exact hne rfl
    · rw [hg.1] at hf
      exact absurd hf (by simp)
  have hc3 : ¬(a ≠ [] ∧ b ≠ [] ∧ strLt a b = false) := by
    rintro ⟨ha', hb', hf⟩
    rw [hab ha' hb'] at hf
    exact absurd hf (by simp)
  unfold KeyBetween
  rw [if_neg hc1, if_neg hc2, if_neg hc3]
  by_cases hae : a = []
  · rw [if_pos hae]
    by_cases hbe : b = []
    · rw [if_pos hbe]
      exact ⟨zero, rfl, fun h => absurd hae h, fun h => absurd hbe h,
        Or.inl ⟨by decide, by decide⟩⟩
    · rw [if_neg hbe]
      have hgb' : GoodKey b := hgb.resolve_left hbe
      obtain ⟨hbs, ib, hib, hbtr⟩ := validateOrderKey_iff.mp hgb'.1
      obtain ⟨hvib, hibtake⟩ := getIntPart_spec hib
      have hdecb : ib ++ b.drop ib.length = b := by
        conv_rhs => rw [← List.take_append_drop ib.length b]
        rw [hibtake]
      have halb2 : alpha (ib ++ b.drop ib.length) := by
        rw [hdecb]
        exact hgb'.2
      have halib := (alpha_append.mp halb2).1
      have halfb := (alpha_append.mp halb2).2
      simp only [hib]
      by_cases hsm : ib = smallestInt
      · rw [if_pos hsm]
        have hfbne : b.drop ib.length ≠ [] := by
          intro hc
          apply hbs
          rw [← hdecb, hc, List.append_nil, hsm]
        obtain ⟨m', hmeq, hmne, _, hmlt, hmtr, hmal⟩ :=
          midpoint_spec (0 + (b.drop ib.length).length) [] (b.drop ib.length)
            (by simp) alpha_nil halfb (fun _ => ⟨strLt_nil_left _ hfbne, hbtr⟩)
        simp only [hmeq, GRes.map]
        refine ⟨ib ++ m', rfl, fun h => absurd hae h, ?_, ?_⟩
        · intro _
          have key : strLt (ib ++ m') (ib ++ b.drop ib.length) = true := by
            rw [strLt_append_left]
            exact hmlt hfbne
          rwa [hdecb] at key
        · left
          exact ⟨validateOrderKey_append hvib (append_ne_smallestInt hvib hmne) hmtr,
            alpha_append.mpr ⟨halib, hmal⟩⟩
      · rw [if_neg hsm]
        by_cases hlt : strLt ib b = true
        · rw [if_pos hlt]
          exact ⟨ib, rfl, fun h => absurd hae h, fun _ => hlt,
            Or.inl ⟨validateOrderKey_int hvib hsm, halib⟩⟩
        · rw [if_neg hlt]
          have hfbe : b.drop ib.length = [] := by
            by_contra hc
            apply hlt
            rw [← hdecb]
            exact strLt_grow ib _ hc
          have hbib : b = ib := by
            rw [← hdecb, hfbe, List.append_nil]
          obtain ⟨d, hdeq, hdiff, hdgood⟩ := decrementInt_spec hvib halib
          have hdne : d ≠ [] := fun hc => hsm (hdiff.mp hc)
          obtain ⟨hvd, hald, hdlt⟩ := hdgood hdne
          simp only [hdeq, GRes.bind]
          rw [if_neg hdne]
          refine ⟨d, rfl, fun h => absurd hae h, ?_, ?_⟩
          · intro _
            rw [hbib]
            exact hdlt
          · by_cases hdsm : d = smallestInt
            · exact Or.inr ⟨hdsm, hae, hbe⟩
            · exact Or.inl ⟨validateOrderKey_int hvd hdsm, hald⟩
  · rw [if_neg hae]
    have hga' : GoodKey a := hga.resolve_left hae
    obtain ⟨has, ia, hia, hatr⟩ := validateOrderKey_iff.mp hga'.1
    obtain ⟨hvia, hiatake⟩ := getIntPart_spec hia
    have hdeca : ia ++ a.drop ia.length = a := by
      conv_rhs => rw [← List.take_append_drop ia.length a]
      rw [hiatake]
    have hala2 : alpha (ia ++ a.drop ia.length) := by
      rw [hdeca]
      exact hga'.2
    have halia := (alpha_append.mp hala2).1
    have halfa := (alpha_append.mp hala2).2
    obtain ⟨i, hieq, hiov, higood⟩ := incrementInt_spec hvia halia
    by_cases hbe : b = []
    · rw [if_pos hbe]
      simp only [hia, hieq, GRes.bind]
      by_cases hio : i = []
      · obtain ⟨m', hmeq, hmne, hmlt1, _, hmtr, hmal⟩ :=
          midpoint_spec ((a.drop ia.length).length + 0) (a.drop ia.length) []
            (by simp) halfa alpha_nil (fun h => absurd rfl h)
        rw [if_pos hio]
        simp only [hmeq, GRes.map]
        refine ⟨ia ++ m', rfl, ?_, fun h => absurd hbe h, ?_⟩
        · intro _
          have key : strLt (ia ++ a.drop ia.length) (ia ++ m') = true := by
            rw [strLt_append_left]
            exact hmlt1
          rwa [hdeca] at key
        · left
          exact ⟨validateOrderKey_append hvia (append_ne_smallestInt hvia hmne) hmtr,
            alpha_append.mpr ⟨halia, hmal⟩⟩
      · obtain ⟨hvi, hali, hilt, hism⟩ := higood hio
        rw [if_neg hio]
        refine ⟨i, rfl, ?_, fun h => absurd hbe h,
          Or.inl ⟨validateOrderKey_int hvi hism, hali⟩⟩
        intro _
        have hnp : ¬ ia <+: i := not_prefix_of_lt_int hvia hvi hilt
        have key := strLt_extend (a.drop ia.length) hnp hilt
        rwa [hdeca] at key
    · rw [if_neg hbe]
      have hgb' : GoodKey b := hgb.resolve_left hbe
      obtain ⟨hbs, ib, hib, hbtr⟩ := validateOrderKey_iff.mp hgb'.1
      obtain ⟨hvib, hibtake⟩ := getIntPart_spec hib
      have hdecb : ib ++ b.drop ib.length = b := by
        conv_rhs => rw [← List.take_append_drop ib.length b]
        rw [hibtake]
      have halb2 : alpha (ib ++ b.drop ib.length) := by
        rw [hdecb]
        exact hgb'.2
      have halib := (alpha_append.mp halb2).1
      have halfb := (alpha_append.mp halb2).2
      have hord := hab hae hbe
      simp only [hia, hib]
      by_cases hiaib : ia = ib
      · subst hiaib
        rw [if_pos rfl]
        have hfbne : b.drop ia.length ≠ [] := by
          intro hc
          have hbib : b = ia := by
            rw [← hdecb, hc, List.append_nil]
          have hfalse : strLt a b = false := by
            rw [hbib, ← hdeca, strLt_append_self]
          rw [hord] at hfalse
          exact absurd hfalse (by simp)
        have hordf : strLt (a.drop ia.length) (b.drop ia.length) = true := by
          have key := hord
          rw [← hdeca] at key
          rw [← hdecb] at key
          rw [strLt_append_left] at key
          exact key
        obtain ⟨m', hmeq, hmne, hmlt1, hmlt2, hmtr, hmal⟩ :=
          midpoint_spec ((a.drop ia.length).length + (b.drop ia.length).length)
            (a.drop ia.length) (b.drop ia.length) (by omega) halfa halfb
            (fun _ => ⟨hordf, hbtr⟩)
        simp only [hmeq, GRes.map]
        refine ⟨ia ++ m', rfl, ?_, ?_, ?_⟩
        · intro _
          have key : strLt (ia ++ a.drop ia.length) (ia ++ m') = true := by
            rw [strLt_append_left]
            exact hmlt1
          rwa [hdeca] at key
        · intro _
          have key : strLt (ia ++ m') (ia ++ b.drop ia.length) = true := by
            rw [strLt_append_left]
            exact hmlt2 hfbne
          rwa [hdecb] at key
        · left
          exact ⟨validateOrderKey_append hvia (append_ne_smallestInt hvia hmne) hmtr,
            alpha_append.mpr ⟨halia, hmal⟩⟩
      · rw [if_neg hiaib]
        have hio : i ≠ [] := by
          intro hc
          obtain ⟨t, hiat, htz⟩ := hiov.mp hc
          have hrep : ia = List.replicate (t.length + 1) 'z' := by
            rw [hiat, List.replicate_succ]
            congr 1
            exact List.eq_replicate_iff.mpr ⟨rfl, htz⟩
          have hpre : List.replicate (t.length + 1) 'z' <+: b := by
            apply allz_lead (t.length + 1) b (a.drop ia.length) hgb'.2
            rw [← hrep, hdeca]
            exact hord
          rw [← hrep] at hpre
          exact hiaib (intPart_of_take hvia hib hpre).symm
        obtain ⟨hvi, hali, hilt, hism⟩ := higood hio
        simp only [hieq, GRes.bind]
        rw [if_neg hio]
        have hnp : ¬ ia <+: i := not_prefix_of_lt_int hvia hvi hilt
        by_cases hib2 : strLt i b = true
        · rw [if_pos hib2]
          refine ⟨i, rfl, ?_, fun _ => hib2,
            Or.inl ⟨validateOrderKey_int hvi hism, hali⟩⟩
          intro _
          have key := strLt_extend (a.drop ia.length) hnp hilt
          rwa [hdeca] at key
        · rw [if_neg hib2]
          obtain ⟨m', hmeq, hmne, hmlt1, _, hmtr, hmal⟩ :=
            midpoint_spec ((a.drop ia.length).length + 0) (a.drop ia.length) []
              (by simp) halfa alpha_nil (fun h => absurd rfl h)
          simp only [hmeq, GRes.map]
          refine ⟨ia ++ m', rfl, ?_, ?_, ?_⟩
          · intro _
            have key : strLt (ia ++ a.drop ia.length) (ia ++ m') = true := by
              rw [strLt_append_left]
              exact hmlt1
            rwa [hdeca] at key
          · intro _
            have hiab : strLt ia b = true := by
              have key := hord
              rw [← hdeca] at key
              rcases strLt_of_append key with h' | h'
              · exact h'
              · exfalso
                rw [← h'] at hib
                rw [getIntPart_of_validateInt hvia] at hib
                exact hiaib (Option.some_injective _ hib)
            have hnpb : ¬ ia <+: b := fun hp => hiaib (intPart_of_take hvia hib hp).symm
            exact strLt_extend m' hnpb hiab
          · left
            exact ⟨validateOrderKey_append hvia (append_ne_smallestInt hvia hmne) hmtr,
              alpha_append.mpr ⟨halia, hmal⟩⟩

theorem NKeysBetween_zero (a b : Str) : NKeysBetween a b 0 = .ok [] := rfl

theorem NKeysBetween_one (a b : Str) : NKeysBetween a b 1 = (KeyBetween a b).map ([·]) := rfl

/-- The upward chain of NKeysBetween's b = "" branch: starting from a valid
alphabet key it produces exactly count keys, each valid, forming a strictly
increasing run above the start. -/
theorem chainUp_spec : ∀ (count : Nat) (c : Str), GoodKey c →
    ∃ l, chainUp count c = .ok l ∧ l.length = count ∧
      List.Chain' (fun x y => strLt x y = true) (c :: l) ∧
      ∀ k ∈ l, GoodKey k ∧ strLt c k = true := by
  intro count
  induction count with
  | zero =>
    intro c _
    exact ⟨[], rfl, rfl, List.chain'_singleton c, by simp⟩
  | succ m ih =>
    intro c hc
    obtain ⟨d, hdeq, hdlt, _, hdgood⟩ := keyBetween_spec c [] (Or.inr hc) (Or.inl rfl)
      (fun _ hb => absurd rfl hb)
    have hdg : GoodKey d := by
      rcases hdgood with h | ⟨_, _, hb⟩
      · exact h
      · exact absurd rfl hb
    have hcd : strLt c d = true := hdlt hc.ne_nil
    obtain ⟨l, hleq, hlen, hch, hall⟩ := ih d hdg
    refine ⟨d :: l, ?_, by simp [hlen], ?_, ?_⟩
    · simp only [chainUp, hdeq, GRes.bind, hleq, GRes.map]
    · exact List.chain'_cons.mpr ⟨hcd, hch⟩
    · intro k hk
      rcases List.mem_cons.mp hk with rfl | hk
      · exact ⟨hdg, hcd⟩
      · exact ⟨(hall k hk).1, strLt_trans hcd (hall k hk).2⟩

/-- Correctness of NKeysBetween for valid alphabet bounds, away from the one
breaking configuration: with a empty, b non-empty and n at least 2, the
downward chain can land on the reserved sentinel smallestInt and the next
iteration then rejects it. -/
theorem nKeysBetween_spec : ∀ (n : Nat) (a b : Str), (a = [] ∨ GoodKey a) →
    (b = [] ∨ GoodKey b) → (a ≠ [] → b ≠ [] → strLt a b = true) →
    (2 ≤ n → a ≠ [] ∨ b = []) →
    ∃ l, NKeysBetween a b n = .ok l ∧ l.length = n ∧
      List.Chain' (fun x y => strLt x y = true) l ∧
      ∀ k ∈ l, (a ≠ [] → strLt a k = true) ∧ (b ≠ [] → strLt k b = true) := by
  intro n
  induction n using Nat.strongRecOn with
  | ind n ih =>
    intro a b hga hgb hab hside
    cases n with
    | zero => exact ⟨[], rfl, rfl, List.chain'_nil, by simp⟩
    | succ n1 =>
      cases n1 with
      | zero =>
        obtain ⟨m, hmeq, h1, h2, _⟩ := keyBetween_spec a b hga hgb hab
        refine ⟨[m], ?_, rfl, List.chain'_singleton m, ?_⟩
        · rw [NKeysBetween_one, hmeq]
          rfl
        · intro k hk
          rw [List.mem_singleton] at hk
          subst hk
          exact ⟨h1, h2⟩
      | succ m =>
        rw [NKeysBetween_two]
        by_cases hbe : b = []
        · subst hbe
          rw [if_pos rfl]
          obtain ⟨c, hceq, h1, _, hcgood⟩ := keyBetween_spec a [] hga (Or.inl rfl)
            (fun _ hb => absurd rfl hb)
          have hcg : GoodKey c := by
            rcases hcgood with h | ⟨_, _, hb⟩
            · exact h
            · exact absurd rfl hb
          obtain ⟨l, hleq, hlen, hch, hall⟩ := chainUp_spec (m + 1) c hcg
          simp only [hceq, GRes.bind, hleq, GRes.map]
          refine ⟨c :: l, rfl, by simp [hlen], hch, ?_⟩
          intro k hk
          rcases List.mem_cons.mp hk with rfl | hk
          · exact ⟨h1, fun hb => absurd rfl hb⟩
          · exact ⟨fun hane => strLt_trans (h1 hane) (hall k hk).2,
              fun hb => absurd rfl hb⟩
        · rw [if_neg hbe]
          have hane : a ≠ [] := by
            rcases hside (by omega) with h | h
            · exact h
            · exact absurd h hbe
          rw [if_neg hane]
          obtain ⟨c, hceq, h1, h2, hcgood⟩ := keyBetween_spec a b hga hgb hab
          have hcg : GoodKey c := by
            rcases hcgood with h | ⟨_, he, _⟩
            · exact h
            · exact absurd he hane
          have hac : strLt a c = true := h1 hane
          have hcb : strLt c b = true := h2 hbe
          have hcne : c ≠ [] := hcg.ne_nil
          obtain ⟨left, hleq, hllen, hlch, hlall⟩ := ih ((m + 2) / 2) (by omega) a c
            hga (Or.inr hcg) (fun _ _ => hac) (fun _ => Or.inl hane)
          obtain ⟨right, hreq, hrlen, hrch, hrall⟩ := ih (m + 2 - (m + 2) / 2 - 1)
            (by omega) c b (Or.inr hcg) hgb (fun _ _ => hcb) (fun _ => Or.inl hcne)
          simp only [hceq, GRes.bind, hleq, hreq, GRes.map]
          refine ⟨left ++ c :: right, rfl, ?_, ?_, ?_⟩
          · simp only [List.length_append, List.length_cons, hllen, hrlen]
            omega
          · rw [List.chain'_append]
            refine ⟨hlch, ?_, ?_⟩
            · rw [List.chain'_cons']
              refine ⟨?_, hrch⟩
              intro y hy
              exact (hrall y (List.mem_of_mem_head? hy)).1 hcne
            · intro x hx y hy
              have hyc : y = c := by
                have hyc' : c = y := by simpa using hy
                exact hyc'.symm
              subst hyc
              exact (hlall x (List.mem_of_mem_getLast? hx)).2 hcne
          · intro k hk
            rcases List.mem_append.mp hk with hk | hk
            · exact ⟨fun _ => (hlall k hk).1 hane,
                fun _ => strLt_trans ((hlall k hk).2 hcne) hcb⟩
            · rcases List.mem_cons.mp hk with rfl | hk
              · exact ⟨fun _ => hac, fun _ => hcb⟩
              · exact ⟨fun _ => strLt_trans hac ((hrall k hk).1 hcne),
                  fun _ => (hrall k hk).2 hbe⟩

/-- The head-advance test of incrementInt: for an alphabet head other than
'z' and 'Z', the successor character exceeds 'a' exactly when the head was
already lowercase. -/
theorem inc_head_cond : ∀ h ∈ base62Digits, h ≠ 'z' → h ≠ 'Z' →
    (('a' < Char.ofNat (h.toNat + 1)) ↔ 'a' ≤ h) := by decide

/-- The carry-out shape of incrementInt off the special heads: the head
advances by one and the tail of '0' digits gains one digit exactly when the
head is lowercase, else loses one. -/
theorem incrementInt_carry_shape (h : Char) (t : Str)
    (hv : validateInt (h :: t) = true) (ha : alpha (h :: t))
    (htz : ∀ d ∈ t, d = 'z') (hz : h ≠ 'z') (hZ : h ≠ 'Z') :
    incrementInt (h :: t) =
      .ok (Char.ofNat (h.toNat + 1) ::
        (if 'a' ≤ h then List.replicate (t.length + 1) '0'
         else List.replicate (t.length - 1) '0')) := by
  have hmem : h ∈ base62Digits := (alpha_cons.mp ha).1
  obtain ⟨ds', carry, hdeq, hdlen, _, hciff, hczero, _, _⟩ :=
    incDigits_spec t (alpha_cons.mp ha).2
  have hcarry : carry = true := hciff.mpr htz
  subst hcarry
  have hds' : ds' = List.replicate t.length '0' := by
    rw [List.eq_replicate_iff]
    exact ⟨hdlen, hczero rfl⟩
  subst hds'
  rw [incrementInt_cons hv, hdeq]
  show (if h = 'Z' then GRes.ok zero
    else if h = 'z' then GRes.ok []
    else if 'a' < Char.ofNat (h.toNat + 1) then
      GRes.ok (Char.ofNat (h.toNat + 1) :: (List.replicate t.length '0' ++ ['0']))
    else GRes.ok (Char.ofNat (h.toNat + 1) :: (List.replicate t.length '0').drop 1)) = _
  rw [if_neg hZ, if_neg hz]
  by_cases hle : 'a' ≤ h
  · rw [if_pos ((inc_head_cond h hmem hz hZ).mpr hle), if_pos hle, List.replicate_succ']
  · rw [if_neg (fun hc => hle ((inc_head_cond h hmem hz hZ).mp hc)), if_neg hle,
      List.drop_replicate]

/-!
The claims.
-/

/-- Claim C1, counterexamples to the claim as stated.  First: from an empty
lower bound, KeyBetween can return the reserved sentinel
"A00000000000000000000000000", which validateOrderKey itself rejects.
Second: validateOrderKey does not check that characters belong to the
base-62 alphabet, and on the accepted key "a0!" the returned key is not
below the upper bound. -/
theorem claim_C1_cex :
    (validateOrderKey "A00000000000000000000000001".toList = true ∧
      KeyBetween [] "A00000000000000000000000001".toList =
        .ok "A00000000000000000000000000".toList ∧
      validateOrderKey "A00000000000000000000000000".toList = false) ∧
    (validateOrderKey "a0".toList = true ∧ validateOrderKey "a0!".toList = true ∧
      strLt "a0".toList "a0!".toList = true ∧
      KeyBetween "a0".toList "a0!".toList = .ok "a00V".toList ∧
      strLt "a00V".toList "a0!".toList = false) := by
  exact ⟨⟨by decide, by decide, by decide⟩,
    by decide, by decide, by decide, by decide, by decide⟩

/-- Claim C1 (amended): for bounds over the base-62 alphabet that are empty
or pass validateOrderKey, in order when both are non-empty, KeyBetween
returns without error a key strictly between the bounds; the key passes
validateOrderKey except that with an empty lower bound the result can be the
reserved sentinel smallestInt. -/
theorem claim_C1 (a b : Str)
    (hga : a = [] ∨ (validateOrderKey a = true ∧ alpha a))
    (hgb : b = [] ∨ (validateOrderKey b = true ∧ alpha b))
    (hab : a ≠ [] → b ≠ [] → strLt a b = true) :
    ∃ m, KeyBetween a b = .ok m ∧ (a ≠ [] → strLt a m = true) ∧
      (b ≠ [] → strLt m b = true) ∧
      (validateOrderKey m = true ∨ (m = smallestInt ∧ a = [])) := by
  obtain ⟨m, h1, h2, h3, h4⟩ := keyBetween_spec a b hga hgb hab
  refine ⟨m, h1, h2, h3, ?_⟩
  rcases h4 with h | h
  · exact Or.inl h.1
  · exact Or.inr ⟨h.1, h.2.1⟩

theorem claim_C1_witness :
    ((validateOrderKey "a0".toList = true ∧ alpha "a0".toList) ∧
      (validateOrderKey "a1".toList = true ∧ alpha "a1".toList)) ∧
    ∃ m, KeyBetween "a0".toList "a1".toList = .ok m ∧
      ("a0".toList ≠ [] → strLt "a0".toList m = true) ∧
      ("a1".toList ≠ [] → strLt m "a1".toList = true) ∧
      (validateOrderKey m = true ∨ (m = smallestInt ∧ "a0".toList = [])) :=
  ⟨⟨⟨by decide, by decide⟩, ⟨by decide, by decide⟩⟩,
    claim_C1 "a0".toList "a1".toList (Or.inr ⟨by decide, by decide⟩)
      (Or.inr ⟨by decide, by decide⟩) (fun _ _ => by decide)⟩

/-- Claim C2, counterexamples to the claim as stated.  First: with an empty
lower bound and upper bound "A" followed by 25 '0' and a '1', the first
generated key is the reserved sentinel, and the second iteration rejects it:
NKeysBetween reports an error for n = 2.  Second: validateOrderKey accepts
the non-alphabet key "a0!", and the single key generated below it is not
smaller than it. -/
theorem claim_C2_cex :
    (validateOrderKey "A00000000000000000000000001".toList = true ∧
      NKeysBetween [] "A00000000000000000000000001".toList 2 = .err) ∧
    (validateOrderKey "a0".toList = true ∧ validateOrderKey "a0!".toList = true ∧
      strLt "a0".toList "a0!".toList = true ∧
      NKeysBetween "a0".toList "a0!".toList 1 = .ok ["a00V".toList] ∧
      strLt "a00V".toList "a0!".toList = false) := by
  exact ⟨⟨by decide, by decide⟩, by decide, by decide, by decide, by decide, by decide⟩

/-- Claim C2 (amended): for alphabet bounds that are empty or valid, in
order, and avoiding the broken configuration (empty lower bound with
non-empty upper bound and n at least 2), NKeysBetween returns exactly n
strictly increasing keys, all strictly between the bounds. -/
theorem claim_C2 (n : Nat) (a b : Str) (_hn : 1 ≤ n)
    (hga : a = [] ∨ (validateOrderKey a = true ∧ alpha a))
    (hgb : b = [] ∨ (validateOrderKey b = true ∧ alpha b))
    (hab : a ≠ [] → b ≠ [] → strLt a b = true)
    (hside : 2 ≤ n → a ≠ [] ∨ b = []) :
    ∃ l, NKeysBetween a b n = .ok l ∧ l.length = n ∧
      List.Chain' (fun x y => strLt x y = true) l ∧
      ∀ k ∈ l, (a ≠ [] → strLt a k = true) ∧ (b ≠ [] → strLt k b = true) :=
  nKeysBetween_spec n a b hga hgb hab hside

theorem claim_C2_witness :
    ((1 ≤ 3) ∧ (validateOrderKey "a0".toList = true ∧ alpha "a0".toList) ∧
      (validateOrderKey "a2".toList = true ∧ alpha "a2".toList)) ∧
    ∃ l, NKeysBetween "a0".toList "a2".toList 3 = .ok l ∧ l.length = 3 ∧
      List.Chain' (fun x y => strLt x y = true) l ∧
      ∀ k ∈ l, ("a0".toList ≠ [] → strLt "a0".toList k = true) ∧
        ("a2".toList ≠ [] → strLt k "a2".toList = true) :=
  ⟨⟨by decide, ⟨by decide, by decide⟩, ⟨by decide, by decide⟩⟩,
    claim_C2 3 "a0".toList "a2".toList (by decide) (Or.inr ⟨by decide, by decide⟩)
      (Or.inr ⟨by decide, by decide⟩) (fun _ _ => by decide)
      (fun _ => Or.inl (by decide))⟩

/-- Claim C3: refuted by the code.  On the valid in-order bounds a = "a0",
b = "a011", the adjacent-digit branch of midpointJitter pins its pick to
index 1 although the only digit below b's second digit '1' is '0', so
KeyBetweenJitter returns the upper bound b itself — for every jitter source,
every call counter and every jitterRange — violating m < b. -/
theorem claim_C3 : ∀ (j : JF) (k : Nat) (jr : Int),
    KeyBetweenJitter "a0".toList "a011".toList j k jr = .ok ("a011".toList, k) ∧
    strLt "a011".toList "a011".toList = false := by
  intro j k jr
  exact ⟨rfl, by decide⟩

/-- Claim C4: refuted by the code.  keyBetweenInternal has no jitterRange = 0
bypass into the deterministic engine: on a = "a0", b = "a011" with
jitterRange 0 it returns "a011" for every jitter source, while KeyBetween
returns "a01". -/
theorem claim_C4 : ∀ (j : JF) (k : Nat),
    KeyBetweenJitter "a0".toList "a011".toList j k 0 = .ok ("a011".toList, k) ∧
    KeyBetween "a0".toList "a011".toList = .ok "a01".toList ∧
    ("a011".toList : Str) ≠ "a01".toList := by
  intro j k
  exact ⟨rfl, by decide, by decide⟩

/-- Claim C5, counterexample to the claim as stated: validateInt checks only
the declared length, so "a!" is a valid integer part, not the underflow
sentinel, yet decrementInt indexes base62Digits out of range on it — a
run-time panic, not a non-empty result. -/
theorem claim_C5_cex :
    validateInt ['a', '!'] = true ∧ ['a', '!'] ≠ smallestInt ∧
    decrementInt ['a', '!'] = .crash := by
  exact ⟨by decide, by decide, by decide⟩

/-- Claim C5 (amended): over alphabet digits, a carry out of the most
significant digit makes incrementInt signal overflow (empty result, no
error) when the head is 'z' and return the canonical zero "a0" when the head
is 'Z'; decrementInt signals underflow exactly on the sentinel smallestInt
and returns a non-empty valid integer part on every other valid alphabet
integer part. -/
theorem claim_C5 (h : Char) (t : Str) (hv : validateInt (h :: t) = true)
    (ha : alpha (h :: t)) :
    ((∀ d ∈ t, d = 'z') →
        (h = 'z' → incrementInt (h :: t) = .ok []) ∧
        (h = 'Z' → incrementInt (h :: t) = .ok zero)) ∧
    (decrementInt (h :: t) = .ok [] ↔ h :: t = smallestInt) ∧
    (h :: t ≠ smallestInt →
      ∃ d, decrementInt (h :: t) = .ok d ∧ d ≠ [] ∧ validateInt d = true) := by
  refine ⟨?_, ?_, ?_⟩
  · intro htz
    constructor
    · intro hz
      subst hz
      obtain ⟨i, hieq, hiov, _⟩ := incrementInt_spec hv ha
      have hinil : i = [] := hiov.mpr ⟨t, rfl, htz⟩
      rw [hinil] at hieq
      exact hieq
    · intro hZ
      subst hZ
      have hgl : getIntLen 'Z' = some (t.length + 1) := validateInt_cons.mp hv
      have hZ2 : getIntLen 'Z' = some 2 := by decide
      rw [hZ2] at hgl
      have h2 : 2 = t.length + 1 := Option.some_injective _ hgl
      obtain ⟨d, hd⟩ := List.length_eq_one.mp (by omega : t.length = 1)
      subst hd
      have hdz : d = 'z' := htz d (List.mem_singleton_self d)
      subst hdz
      decide
  · obtain ⟨d, hdeq, hdiff, _⟩ := decrementInt_spec hv ha
    constructor
    · intro he
      rw [hdeq] at he
      simp only [GRes.ok.injEq] at he
      exact hdiff.mp he
    · intro hsm
      rw [hdeq, hdiff.mpr hsm]
  · intro hne
    obtain ⟨d, hdeq, hdiff, hgood⟩ := decrementInt_spec hv ha
    have hdne : d ≠ [] := fun hc => hne (hdiff.mp hc)
    exact ⟨d, hdeq, hdne, (hgood hdne).1⟩

theorem claim_C5_witness :
    (validateInt ['Z', 'z'] = true ∧ alpha ['Z', 'z']) ∧
    (((∀ d ∈ (['z'] : Str), d = 'z') →
        (('Z' : Char) = 'z' → incrementInt ['Z', 'z'] = .ok []) ∧
        (('Z' : Char) = 'Z' → incrementInt ['Z', 'z'] = .ok zero)) ∧
      (decrementInt ['Z', 'z'] = .ok [] ↔ ['Z', 'z'] = smallestInt) ∧
      (['Z', 'z'] ≠ smallestInt →
        ∃ d, decrementInt ['Z', 'z'] = .ok d ∧ d ≠ [] ∧ validateInt d = true)) :=
  ⟨⟨by decide, by decide⟩, claim_C5 'Z' ['z'] (by decide) (by decide)⟩

/-- Claim C6, counterexample to the claim as stated: incrementing "az"
advances the head from 'a' to 'b' — no crossing from the negative length
class into the positive one — yet a trailing '0' is appended ("b00", length
grows); at the actual crossing, incrementing "Zz" yields "a0" with no length
growth. -/
theorem claim_C6_cex :
    incrementInt "az".toList = .ok "b00".toList ∧
    incrementInt "Zz".toList = .ok "a0".toList := by
  exact ⟨by decide, by decide⟩

/-- Claim C6 (amended): for a valid alphabet integer part with full carry and
head other than 'z' and 'Z', incrementInt advances the head by one character
and appends a trailing '0' (length grows by one) exactly when the head is in
the lowercase (positive) length class; for an uppercase head it drops one
digit (length shrinks by one). -/
theorem claim_C6 (h : Char) (t : Str) (hv : validateInt (h :: t) = true)
    (ha : alpha (h :: t)) (htz : ∀ d ∈ t, d = 'z') (hz : h ≠ 'z') (hZ : h ≠ 'Z') :
    incrementInt (h :: t) =
      .ok (Char.ofNat (h.toNat + 1) ::
        (if 'a' ≤ h then List.replicate (t.length + 1) '0'
         else List.replicate (t.length - 1) '0')) :=
  incrementInt_carry_shape h t hv ha htz hz hZ

theorem claim_C6_witness :
    (validateInt ['a', 'z'] = true ∧ alpha ['a', 'z'] ∧
      (∀ d ∈ (['z'] : Str), d = 'z') ∧ ('a' : Char) ≠ 'z' ∧ ('a' : Char) ≠ 'Z') ∧
    incrementInt ['a', 'z'] =
      .ok (Char.ofNat (('a' : Char).toNat + 1) ::
        (if ('a' : Char) ≤ 'a' then List.replicate ((['z'] : Str).length + 1) '0'
         else List.replicate ((['z'] : Str).length - 1) '0')) :=
  ⟨⟨by decide, by decide, by decide, by decide, by decide⟩,
    claim_C6 'a' ['z'] (by decide) (by decide) (by decide) (by decide) (by decide)⟩

/-- Claim C7, counterexamples to the claim as stated.  First: on the maximal
27-character key of all 'z' with an empty upper bound, the integer increment
does overflow, yet KeyBetween succeeds (it falls back to extending the
fractional part) — overflow is not an error condition of KeyBetween.
Second: validateOrderKey accepts the non-alphabet key "a!", none of the
claimed error conditions hold for the pair ("", "a!"), yet KeyBetween
panics instead of returning a key. -/
theorem claim_C7_cex :
    (validateOrderKey "zzzzzzzzzzzzzzzzzzzzzzzzzzz".toList = true ∧
      incrementInt "zzzzzzzzzzzzzzzzzzzzzzzzzzz".toList = .ok [] ∧
      KeyBetween "zzzzzzzzzzzzzzzzzzzzzzzzzzz".toList [] =
        .ok "zzzzzzzzzzzzzzzzzzzzzzzzzzzV".toList) ∧
    (validateOrderKey ['a', '!'] = true ∧ KeyBetween [] ['a', '!'] = .crash) := by
  exact ⟨⟨by decide, by decide, by decide⟩, by decide, by decide⟩

/-- Claim C7 (amended): over the base-62 alphabet, KeyBetween reports an
error exactly when a non-empty input fails validateOrderKey or both inputs
are non-empty and out of order; integer overflow and underflow never
surface as errors. -/
theorem claim_C7 (a b : Str) (ha : alpha a) (hb : alpha b) :
    KeyBetween a b = .err ↔
      ((a ≠ [] ∧ validateOrderKey a = false) ∨
       (b ≠ [] ∧ validateOrderKey b = false) ∨
       (a ≠ [] ∧ b ≠ [] ∧ strLt a b = false)) := by
  constructor
  · intro herr
    by_contra hno
    have h1 : ¬(a ≠ [] ∧ validateOrderKey a = false) := fun hd => hno (Or.inl hd)
    have h2 : ¬(b ≠ [] ∧ validateOrderKey b = false) := fun hd => hno (Or.inr (Or.inl hd))
    have h3 : ¬(a ≠ [] ∧ b ≠ [] ∧ strLt a b = false) :=
      fun hd => hno (Or.inr (Or.inr hd))
    have hga : a = [] ∨ GoodKey a := by
      rcases eq_or_ne a [] with hae | hae
      · exact Or.inl hae
      · cases hv : validateOrderKey a with
        | false => exact absurd ⟨hae, hv⟩ h1
        | true => exact Or.inr ⟨hv, ha⟩
    have hgb : b = [] ∨ GoodKey b := by
      rcases eq_or_ne b [] with hbe | hbe
      · exact Or.inl hbe
      · cases hv : validateOrderKey b with
        | false => exact absurd ⟨hbe, hv⟩ h2
        | true => exact Or.inr ⟨hv, hb⟩
    have hab : a ≠ [] → b ≠ [] → strLt a b = true := by
      intro ha' hb'
      cases hlt : strLt a b with
      | false => exact absurd ⟨ha', hb', hlt⟩ h3
      | true => rfl
    obtain ⟨m, hmeq, _⟩ := keyBetween_spec a b hga hgb hab
    rw [hmeq] at herr
    exact GRes.noConfusion herr
  · intro hd
    by_cases hd1 : a ≠ [] ∧ validateOrderKey a = false
    · unfold KeyBetween
      rw [if_pos hd1]
    · by_cases hd2 : b ≠ [] ∧ validateOrderKey b = false
      · unfold KeyBetween
        rw [if_neg hd1, if_pos hd2]
      · rcases hd with h | h | h
        · exact absurd h hd1
        · exact absurd h hd2
        · unfold KeyBetween
          rw [if_neg hd1, if_neg hd2, if_pos h]

theorem claim_C7_witness :
    (alpha "a0".toList ∧ alpha "a1".toList) ∧
    (KeyBetween "a0".toList "a1".toList = .err ↔
      (("a0".toList ≠ [] ∧ validateOrderKey "a0".toList = false) ∨
       ("a1".toList ≠ [] ∧ validateOrderKey "a1".toList = false) ∨
       ("a0".toList ≠ [] ∧ "a1".toList ≠ [] ∧
         strLt "a0".toList "a1".toList = false))) :=
  ⟨⟨by decide, by decide⟩, claim_C7 "a0".toList "a1".toList (by decide) (by decide)⟩

/-- Claim C8: Float64Approx returns exactly 0 on "a0", 1 on "a1", -1 on "Z1"
and 1/2 on "a0V", with no error.  (Modelled over exact rationals; each
float64 operation the Go code performs on these inputs is exact, so these are
the float64 values it returns.) -/
theorem claim_C8 :
    Float64Approx "a0".toList = .ok 0 ∧ Float64Approx "a1".toList = .ok 1 ∧
    Float64Approx "Z1".toList = .ok (-1) ∧
    Float64Approx "a0V".toList = .ok (1 / 2 : ℚ) := by
  refine ⟨?_, ?_, ?_, ?_⟩
  · have h1 : validateOrderKey "a0".toList = true := by decide
    have h2 : getIntPart "a0".toList = some ['a', '0'] := by decide
    have s0 : strIndex base62Digits '0' = 0 := by decide
    simp +decide only [Float64Approx, h1, h2, s0, intDigitsVal, fracDigitsVal,
      GRes.map, GRes.bind]
    norm_num
  · have h1 : validateOrderKey "a1".toList = true := by decide
    have h2 : getIntPart "a1".toList = some ['a', '1'] := by decide
    have s1 : strIndex base62Digits '1' = 1 := by decide
    simp +decide only [Float64Approx, h1, h2, s1, intDigitsVal, fracDigitsVal,
      GRes.map, GRes.bind]
    norm_num
  · have h1 : validateOrderKey "Z1".toList = true := by decide
    have h2 : getIntPart "Z1".toList = some ['Z', '1'] := by decide
    have s1 : strIndex base62Digits '1' = 1 := by decide
    simp +decide only [Float64Approx, h1, h2, s1, intDigitsVal, fracDigitsVal,
      GRes.map, GRes.bind]
    norm_num
  · have h1 : validateOrderKey "a0V".toList = true := by decide
    have h2 : getIntPart "a0V".toList = some ['a', '0'] := by decide
    have s0 : strIndex base62Digits '0' = 0 := by decide
    have sV : strIndex base62Digits 'V' = 31 := by decide
    simp +decide only [Float64Approx, h1, h2, s0, sV, intDigitsVal, fracDigitsVal,
      GRes.map, GRes.bind]
    norm_num

/-- Claim C9: termination.  The recursion of midpoint is bounded by the total
length of its arguments and the divide-and-conquer recursion of NKeysBetween
by n: with any fuel beyond those bounds the fuelled computations are already
stable, equal to midpoint and NKeysBetween, which are total functions. -/
theorem claim_C9 (a b : Str) (n f g : Nat) (hf : a.length + b.length < f)
    (hg : n ≤ g) :
    midpointF f a b = midpoint a b ∧ nKeysBetweenF g a b n = NKeysBetween a b n :=
  ⟨midpointF_midpoint f a b hf, nKeysBetweenF_eq g n a b n hg (Nat.le_refl n)⟩

theorem claim_C9_witness :
    ("a0".toList.length + "a1".toList.length < 10 ∧ 3 ≤ 7) ∧
    (midpointF 10 "a0".toList "a1".toList = midpoint "a0".toList "a1".toList ∧
      nKeysBetweenF 7 "a0".toList "a1".toList 3 =
        NKeysBetween "a0".toList "a1".toList 3) :=
  ⟨⟨by decide, by decide⟩, claim_C9 "a0".toList "a1".toList 3 10 7 (by decide) (by decide)⟩

/-- Claim C10: with n = 0, NKeysBetween and NKeysBetweenJitter return an
empty list and no error for every pair of strings — the bounds are never
validated — and every jitter source, call counter and jitterRange. -/
theorem claim_C10 : ∀ (a b : Str) (j : JF) (k : Nat) (jr : Int),
    NKeysBetween a b 0 = .ok [] ∧ NKeysBetweenJitter a b 0 j k jr = .ok ([], k) := by
  intro a b j k jr
  exact ⟨rfl, rfl⟩

end Fracdex
